import Mathlib

/-!
# Verification of the Dynamic Workflow Compiler core

Shallow embedding of the workflow IR (`dwc/ir/spec_schema.py`), the validator
(`dwc/ir/validators.py`), the dependency resolver
(`dwc/compiler/dependency_resolver.py`) and the optimization passes
(`dwc/compiler/optimization_passes.py`), together with proofs about them.

Modelling conventions:
* Python `Dict[str, Any]` payloads (`StepSpec.config`, `RetryPolicy` as seen by
  the retry-injection pass) are modelled as records whose fields are `Option`s
  covering exactly the keys the verified code reads or writes.
* Python functions that can raise are modelled with `Except`/`Option`
  (`none`/`.error` = exception).
* Python `dict` insertion-ordered key sets are modelled by `dictKeys`
  (first-occurrence de-duplication); Python `set` iteration, whose order is
  unspecified and never observable in the verified results, is modelled by a
  canonical order (`dictKeys` or sorted).
* Python `sorted` on strings (code-point lexicographic) is `sortStr`, an
  insertion sort over a structural code-point comparison, so that all
  definitions evaluate inside the Lean kernel.
* Python floats appearing in the covered code (`initial_delay_seconds`,
  `max_delay_seconds`) are only stored, never computed with; they are modelled
  as `ℚ`.
-/

/-! ## String utilities (kernel-computable stand-ins for builtin string ops) -/

/-- Code-point lexicographic comparison of character lists, matching the
comparison Python `sorted` uses on strings. -/
def lexLe : List Char → List Char → Bool
  | [], _ => true
  | _ :: _, [] => false
  | a :: as, b :: bs => if a < b then true else if b < a then false else lexLe as bs

/-- `a <= b` on strings, by code points. -/
def strLe (a b : String) : Bool := lexLe a.data b.data

/-- Insert into a sorted list (helper of `sortStr`). -/
def insertSorted (x : String) : List String → List String
  | [] => [x]
  | y :: ys => if strLe x y then x :: y :: ys else y :: insertSorted x ys

/-- Python `sorted` on a list of strings. -/
def sortStr (l : List String) : List String := l.foldr insertSorted []

/-- Python `str.strip()` (whitespace from both ends). -/
def trimStr (s : String) : String :=
  ⟨((s.data.dropWhile Char.isWhitespace).reverse.dropWhile Char.isWhitespace).reverse⟩

/-- Insert a key into a Python-dict key list (no-op when present). -/
def dictInsert (acc : List String) (x : String) : List String :=
  if x ∈ acc then acc else acc ++ [x]

/-- The key list of a Python dict built by inserting the given keys in order:
first occurrences, in order of first insertion. -/
def dictKeys (l : List String) : List String := l.foldl dictInsert []

/-- Truthiness of an optional string in Python (`None` and `""` are falsy). -/
def strTruthy (o : Option String) : Bool := !(o.getD "").isEmpty

/-! ## Data model (`dwc/ir/spec_schema.py`) -/

/-- `StepSpec.type`: `Literal["llm", "tool", "condition", "transform"]`. -/
inductive StepType
  | llm
  | tool
  | condition
  | transform
deriving DecidableEq

/-- `RetryPolicy.backoff_strategy`: `Literal["fixed", "exponential"]`. -/
inductive BackoffStrategy
  | fixed
  | exponential
deriving DecidableEq

/-- `RetryPolicy`, as the retry-injection pass sees it: a payload dict in which
any key may be absent (pydantic defaults would populate them on construction,
but the pass code defensively treats each key as optional). -/
structure RetryPolicy where
  max_retries : Option Int := none
  backoff_strategy : Option BackoffStrategy := none
  initial_delay_seconds : Option ℚ := none
  max_delay_seconds : Option ℚ := none
deriving DecidableEq

/-- `StepSpec.config : Dict[str, Any]`, restricted to the keys the verified
code reads or writes. -/
structure StepConfig where
  model : Option String := none
  temperature : Option Int := none
  prompt : Option String := none
  fused_steps : Option (List String) := none
  tool_name : Option String := none
  loader : Option String := none
  parallel_group : Option String := none
deriving DecidableEq

/-- `StepSpec`. -/
structure StepSpec where
  id : String
  type : StepType
  config : StepConfig := {}
  retry_policy : RetryPolicy := {}
  timeout_seconds : Int := 120
deriving DecidableEq

/-- `EdgeSpec`. -/
structure EdgeSpec where
  source : String
  target : String
  condition : Option String := none
deriving DecidableEq

/-- `OutputSpec`. -/
structure OutputSpec where
  id : String
  name : String := ""
  data_type : String := ""
  source_step : Option String := none
  description : Option String := none
deriving DecidableEq

/-- `InputSpec` (carried along, not read by any verified code path). -/
structure InputSpec where
  id : String
  name : String := ""
  data_type : String := ""
  required : Bool := true
deriving DecidableEq

/-- `WorkflowSpec.metadata : Dict[str, Any]`, restricted to the key the
verified optimizer writes. -/
structure Metadata where
  optimization_trace : Option (List String) := none
deriving DecidableEq

/-- `WorkflowSpec` (constraints are advisory and never read by the verified
code; they are omitted). -/
structure WorkflowSpec where
  version : String := "1.0.0"
  name : String := ""
  description : String := ""
  inputs : List InputSpec := []
  outputs : List OutputSpec := []
  steps : List StepSpec := []
  edges : List EdgeSpec := []
  metadata : Metadata := {}
deriving DecidableEq

/-- `WorkflowSpec.step_ids`. -/
def step_ids (spec : WorkflowSpec) : List String := spec.steps.map (·.id)

/-! ## Dependency resolver (`dwc/compiler/dependency_resolver.py`)

`DependencyResolver.adjacency` builds `{step.id: set()}` and then
`graph.setdefault(edge.source, set()).add(edge.target)`,
`graph.setdefault(edge.target, set())`.  Its key set — the node set of the
graph — is the step ids followed by edge endpoints, first occurrences in
insertion order. -/

/-- Node (key) list of `adjacency(spec)`. -/
def specNodes (spec : WorkflowSpec) : List String :=
  dictKeys (spec.edges.foldl (fun l e => l ++ [e.source, e.target]) (step_ids spec))

/-- `sorted(graph[node])`: the distinct targets of edges out of `n`, sorted.
(The adjacency values are Python sets; every read of them in the verified code
is through `sorted`, so only the set is observable.) -/
def succList (spec : WorkflowSpec) (n : String) : List String :=
  sortStr (dictKeys ((spec.edges.filter (fun e => e.source = n)).map (·.target)))

/-- The initial `in_degree` map of `topological_order`: for each key `t`,
the number of sources `u` in the graph with `t ∈ graph[u]`. -/
def initIndeg (spec : WorkflowSpec) (t : String) : Int :=
  ((specNodes spec).countP (fun u => t ∈ succList spec u) : Nat)

/-- Inner loop of Kahn's algorithm: `for target in sorted(graph[node]):
in_degree[target] -= 1; if in_degree[target] == 0: queue.append(target)`. -/
def relax (indeg : String → Int) (queue : List String) : List String → ((String → Int) × List String)
  | [] => (indeg, queue)
  | t :: ts =>
      relax (fun x => if x = t then indeg t - 1 else indeg x)
        (if indeg t - 1 = 0 then queue ++ [t] else queue) ts

/-- The `while queue:` loop of Kahn's algorithm.  `fuel = |nodes|` suffices:
the queue always holds distinct unprocessed nodes (established in the proofs
below), so the loop pops at most `|nodes|` times. -/
def kahnLoop (spec : WorkflowSpec) : Nat → List String → (String → Int) → List String → List String
  | 0, _, _, order => order
  | _ + 1, [], _, order => order
  | fuel + 1, n :: rest, indeg, order =>
      let p := relax indeg rest (succList spec n)
      kahnLoop spec fuel p.2 p.1 (order ++ [n])

/-- Kahn's algorithm as run by both `DependencyResolver.topological_order` and
`validators._topological_order` (the two Python copies are identical up to the
error message, which the wrappers below add). -/
def kahnRun (spec : WorkflowSpec) : List String :=
  kahnLoop spec (specNodes spec).length
    (sortStr ((specNodes spec).filter (fun n => initIndeg spec n = 0)))
    (initIndeg spec) []

/-- `DependencyResolver.topological_order`. -/
def topological_order (spec : WorkflowSpec) : Except String (List String) :=
  let order := kahnRun spec
  if order.length = (specNodes spec).length then .ok order
  else .error "Workflow graph contains a cycle and cannot be sorted."

/-- `validators._topological_order` (same algorithm, different message). -/
def validatorsTopologicalOrder (spec : WorkflowSpec) : Except String (List String) :=
  let order := kahnRun spec
  if order.length = (specNodes spec).length then .ok order
  else .error "Workflow graph contains a cycle."

/-- The `while queue:` loop of `DependencyResolver.has_path` (BFS with a
visited set; `graph[current]` is iterated in canonical sorted order — the
boolean result does not depend on that order).  Sufficient fuel is supplied by
`has_path`; the proofs establish the bound. -/
def hasPathLoop (spec : WorkflowSpec) (target : String) : Nat → List String → List String → Bool
  | 0, _, _ => false
  | _ + 1, [], _ => false
  | fuel + 1, current :: rest, visited =>
      if current = target then true
      else if current ∈ visited then hasPathLoop spec target fuel rest visited
      else
        hasPathLoop spec target fuel
          (rest ++ (succList spec current).filter (fun nxt => nxt ∉ visited ++ [current]))
          (visited ++ [current])

/-- `DependencyResolver.has_path`. -/
def has_path (spec : WorkflowSpec) (source target : String) : Bool :=
  if source ∈ specNodes spec ∧ target ∈ specNodes spec then
    hasPathLoop spec target
      (((specNodes spec).length + 1) * ((specNodes spec).length + 1)) [source] []
  else false

/-- The inner accumulation of `find_parallel_groups`: a child joins the
independent set only if no path runs between it and any admitted member. -/
def admitChildren (spec : WorkflowSpec) (children : List String) : List String :=
  children.foldl
    (fun ind child =>
      if ind.all (fun other =>
          !has_path spec child other && !has_path spec other child)
      then ind ++ [child] else ind) []

/-- `DependencyResolver.find_parallel_groups` (`sorted(graph.items())` iterates
parents in sorted key order). -/
def find_parallel_groups (spec : WorkflowSpec) : List (List String) :=
  (sortStr (specNodes spec)).foldl
    (fun groups parent =>
      let children := succList spec parent
      if children.length < 2 then groups
      else
        let independent := admitChildren spec children
        if 1 < independent.length then groups ++ [independent] else groups) []

/-! ## Validator (`dwc/ir/validators.py`) -/

/-- The `for edge in spec.edges` reference-integrity loop of
`validate_workflow_spec`; returns the first error message, if any. -/
def checkEdges (ids : List String) : List EdgeSpec → Option String
  | [] => none
  | e :: es =>
      if e.source ∉ ids then some ("Edge source does not exist: " ++ e.source)
      else if e.target ∉ ids then some ("Edge target does not exist: " ++ e.target)
      else checkEdges ids es

/-- The `for output in spec.outputs` loop of `validate_workflow_spec`
(`output.source_step and output.source_step not in step_id_set`). -/
def checkOutputs (ids : List String) : List OutputSpec → Option String
  | [] => none
  | o :: os =>
      if strTruthy o.source_step ∧ o.source_step.getD "" ∉ ids then
        some ("Output " ++ o.id ++ " references unknown step: " ++ o.source_step.getD "")
      else checkOutputs ids os

/-- The `for step in spec.steps` loop of `validate_workflow_spec` (tool-config
requirement, then positive timeout).  In the source the interpolated ids are
wrapped in single quotes; the quotes are omitted here, the message content is
otherwise identical. -/
def checkSteps : List StepSpec → Option String
  | [] => none
  | s :: ss =>
      if s.type = .tool ∧ strTruthy s.config.tool_name = false
          ∧ strTruthy s.config.loader = false then
        some ("Tool step " ++ s.id ++ " must declare config.tool_name or config.loader.")
      else if s.timeout_seconds ≤ 0 then
        some ("Step " ++ s.id ++ " timeout_seconds must be positive.")
      else checkSteps ss

/-- `validate_workflow_spec`. -/
def validate_workflow_spec (spec : WorkflowSpec) : Except String WorkflowSpec :=
  if spec.steps = [] then .error "Workflow must include at least one step."
  else
    let stripped := spec.steps.map (fun s => trimStr s.id)
    if stripped.length ≠ stripped.dedup.length then .error "Step IDs must be unique."
    else if stripped.any (fun i => i.isEmpty) then .error "Step IDs cannot be empty."
    else match checkEdges stripped spec.edges with
    | some msg => .error msg
    | none =>
      match checkOutputs stripped spec.outputs with
      | some msg => .error msg
      | none =>
        match checkSteps spec.steps with
        | some msg => .error msg
        | none =>
          match validatorsTopologicalOrder spec with
          | .error msg => .error msg
          | .ok order =>
              if order.length = 0 then .error "Workflow graph is empty after validation."
              else .ok spec

/-- `select_terminal_steps`.  The sink branch increments
`outgoing[edge.source]` and raises `KeyError` when an edge source is not a
step id; `none` models that exception. -/
def select_terminal_steps (spec : WorkflowSpec) : Option (List String) :=
  let explicit := spec.outputs.filterMap (fun o =>
    match o.source_step with
    | some s => if s.isEmpty then none else some s
    | none => none)
  if spec.outputs ≠ [] ∧ explicit ≠ [] then some (sortStr explicit.dedup)
  else if spec.edges.all (fun e => e.source ∈ step_ids spec) then
    some (sortStr ((dictKeys (step_ids spec)).filter
      (fun i => ¬ spec.edges.any (fun e => e.source = i))))
  else none

/-! ## Dead-step elimination (`DeadStepEliminationPass.apply`) -/

/-- The reverse-adjacency value `reverse.get(n, set())`: the distinct sources
of edges into `n` (set iteration modelled in first-occurrence order; only
membership in the resulting `useful` set is observable). -/
def revList (spec : WorkflowSpec) (n : String) : List String :=
  dictKeys ((spec.edges.filter (fun e => e.target = n)).map (·.source))

/-- The backward-BFS `while queue:` loop computing the `useful` set.  Each
iteration pops one node and enqueues only nodes new to `useful`, so
`|terminals| + |edges|` fuel (supplied by the caller) suffices. -/
def bfsBack (spec : WorkflowSpec) : Nat → List String → List String → List String
  | 0, _, useful => useful
  | _ + 1, [], useful => useful
  | fuel + 1, n :: rest, useful =>
      let ps := (revList spec n).filter (fun p => p ∉ useful)
      bfsBack spec fuel (rest ++ ps) (useful ++ ps)

/-- The `useful` set of `DeadStepEliminationPass.apply` for given terminals. -/
def usefulSet (spec : WorkflowSpec) (terminals : List String) : List String :=
  bfsBack spec (terminals.length + spec.edges.length) terminals terminals

/-- `DeadStepEliminationPass.apply` (`none` models the `KeyError` that
`select_terminal_steps` can raise on a dangling edge source). -/
def deadStepElimination_apply (spec : WorkflowSpec) : Option WorkflowSpec :=
  if spec.steps = [] then some spec
  else match select_terminal_steps spec with
  | none => none
  | some terminals =>
      if terminals = [] then some spec
      else
        let useful := usefulSet spec terminals
        some { spec with
          steps := spec.steps.filter (fun s => s.id ∈ useful)
          edges := spec.edges.filter (fun e => e.source ∈ useful ∧ e.target ∈ useful)
          outputs := spec.outputs.filter (fun o =>
            strTruthy o.source_step = false ∨ o.source_step.getD "" ∈ useful) }

/-! ## Step fusion (`MergeCompatibleStepsPass.apply`)

The pass's mutable bookkeeping (`step_by_id`, `incoming`, `outgoing`,
`merged_into`, `removed_steps`) is threaded as explicit state. -/

/-- The mutable state of `MergeCompatibleStepsPass.apply`.  `incoming` and
`outgoing` are total (read through `dict.get(key, [])`); `stepById` is the
`step_by_id` dict (`none` = key absent, reads of absent keys raise). -/
structure MergeState where
  stepById : String → Option StepSpec
  incoming : String → List EdgeSpec
  outgoing : String → List EdgeSpec
  mergedInto : String → Option String
  removed : List String

/-- Initial state: `step_by_id = {step.id: step}` (later duplicates win, as in
a Python dict build), `incoming`/`outgoing` collect edges by target/source in
edge order, nothing merged or removed. -/
def initMergeState (spec : WorkflowSpec) : MergeState where
  stepById := spec.steps.foldl
    (fun f s => fun i => if i = s.id then some s else f i) (fun _ => none)
  incoming := spec.edges.foldl
    (fun f e => fun i => if i = e.target then f i ++ [e] else f i) (fun _ => [])
  outgoing := spec.edges.foldl
    (fun f e => fun i => if i = e.source then f i ++ [e] else f i) (fun _ => [])
  mergedInto := fun _ => none
  removed := []

/-- Python `"\n\n".join(prompts)` (structural, kernel-computable). -/
def joinPrompts : List String → String
  | [] => ""
  | [p] => p
  | p :: rest => p ++ "\n\n" ++ joinPrompts rest

/-- The fused replacement for the source step: prompts joined by a blank line,
`fused_steps` recorded, timeout maxed. -/
def fusedStep (source target : StepSpec) (source_id target_id : String) : StepSpec :=
  let merged_prompt :=
    (match source.config.prompt with | some p => [p] | none => [])
    ++ (match target.config.prompt with | some p => [p] | none => [])
  { id := source.id
    type := source.type
    config := { source.config with
      prompt := if merged_prompt = [] then source.config.prompt
                else some (joinPrompts merged_prompt)
      fused_steps := some [source_id, target_id] }
    retry_policy := source.retry_policy
    timeout_seconds := max source.timeout_seconds target.timeout_seconds }

/-- The body of the `for target_edge in list(outgoing.get(target_id, []))`
loop inside a fusion: append the re-sourced copy to the source's outgoing list
and rewrite the affected incoming list. -/
def fuseEdgeStep (source_id target_id : String) (acc : MergeState) (te : EdgeSpec) : MergeState :=
  { acc with
    outgoing := fun i =>
      if i = source_id then
        acc.outgoing i ++ [{ source := source_id, target := te.target, condition := te.condition }]
      else acc.outgoing i
    incoming := fun i =>
      if i = te.target then
        (acc.incoming i).map (fun e =>
          { source := if e.source = target_id then source_id else e.source
            target := e.target
            condition := e.condition })
      else acc.incoming i }

/-- One fusion of `target_id` into `source_id`: update `step_by_id`, re-source
the target's outgoing edges onto the source (rewriting the affected incoming
lists), clear the target's edge lists, record `merged_into` and `removed`. -/
def fuseStep (st : MergeState) (source target : StepSpec)
    (source_id target_id : String) : MergeState :=
  let fused := fusedStep source target source_id target_id
  let st1 := { st with stepById := fun i => if i = source_id then some fused else st.stepById i }
  let st2 := (st1.outgoing target_id).foldl (fuseEdgeStep source_id target_id) st1
  { st2 with
    outgoing := fun i =>
      if i = target_id then []
      else if i = source_id then (st2.outgoing source_id).filter (fun e => e.target ≠ target_id)
      else st2.outgoing i
    incoming := fun i => if i = target_id then [] else st2.incoming i
    mergedInto := fun i => if i = target_id then some source_id else st.mergedInto i
    removed := st.removed ++ [target_id] }

/-- The `for edge in list(outgoing.get(source_id, []))` inner loop: guards in
source order; on an absent `step_by_id` key the Python code raises (`none`). -/
def mergeInner (source_id : String) : List EdgeSpec → MergeState → Option MergeState
  | [], st => some st
  | edge :: rest, st =>
      if edge.target ∈ st.removed then mergeInner source_id rest st
      else match st.stepById source_id, st.stepById edge.target with
      | some source, some target =>
          if strTruthy edge.condition then mergeInner source_id rest st
          else if ¬ (source.type = .llm ∧ target.type = .llm) then mergeInner source_id rest st
          else if (st.outgoing source_id).length ≠ 1 then mergeInner source_id rest st
          else if (st.incoming edge.target).length ≠ 1 then mergeInner source_id rest st
          else if ¬ (source.config.model = target.config.model
              ∧ source.config.temperature.getD 0 = target.config.temperature.getD 0) then
            mergeInner source_id rest st
          else mergeInner source_id rest (fuseStep st source target source_id edge.target)
      | _, _ => none

/-- The `for step in spec.steps` outer loop. -/
def mergeOuter : List StepSpec → MergeState → Option MergeState
  | [], st => some st
  | s :: ss, st =>
      if s.id ∈ st.removed then mergeOuter ss st
      else match mergeInner s.id (st.outgoing s.id) st with
      | none => none
      | some st1 => mergeOuter ss st1

/-- `f"{source_key}->{target_id}:{edge.condition or ''}"`. -/
def edgeKeyStr (source_key target_id : String) (c : Option String) : String :=
  source_key ++ "->" ++ target_id ++ ":" ++ c.getD ""

/-- The key string of an already-built edge (equal to the key the rebuild
computes for it). -/
def edgeKeyOf (e : EdgeSpec) : String := edgeKeyStr e.source e.target e.condition

/-- An edge with both endpoints remapped through `merged_into`
(`merged_into.get(x, x)`). -/
def remapEdge (st : MergeState) (d : EdgeSpec) : EdgeSpec :=
  { source := (st.mergedInto d.source).getD d.source
    target := (st.mergedInto d.target).getD d.target
    condition := d.condition }

/-- The per-edge body of the `new_edges` rebuild: skip self-loops after
remapping, de-duplicate by the key string, otherwise append. -/
def addEdgeStep (st : MergeState) (acc : List String × List EdgeSpec)
    (edge : EdgeSpec) : List String × List EdgeSpec :=
  if (remapEdge st edge).source = (remapEdge st edge).target then acc
  else if edgeKeyOf (remapEdge st edge) ∈ acc.1 then acc
  else (acc.1 ++ [edgeKeyOf (remapEdge st edge)], acc.2 ++ [remapEdge st edge])

/-- The per-key body of the rebuild: skip removed sources, fold that key's
outgoing edges. -/
def addKeyStep (st : MergeState) (acc : List String × List EdgeSpec)
    (source_id : String) : List String × List EdgeSpec :=
  if source_id ∈ st.removed then acc
  else (st.outgoing source_id).foldl (addEdgeStep st) acc

/-- Rebuild of `new_edges`: iterate the `outgoing` dict keys, skip removed
sources, remap both endpoints through `merged_into`, drop self-loops, and
de-duplicate by the edge key string. -/
def buildNewEdges (st : MergeState) (keys : List String) : List EdgeSpec :=
  (keys.foldl (addKeyStep st) ([], [])).2

/-- The key list of the `outgoing` dict: step ids, then edge sources, first
occurrences in insertion order. -/
def outgoingKeys (spec : WorkflowSpec) : List String :=
  dictKeys (step_ids spec ++ spec.edges.map (·.source))

/-- Rebind an output through `merged_into`. -/
def rebindOutput (st : MergeState) (o : OutputSpec) : OutputSpec :=
  match o.source_step with
  | some s =>
      match st.mergedInto s with
      | some a => { o with source_step := some a }
      | none => o
  | none => o

/-- `MergeCompatibleStepsPass.apply` (`none` models the `KeyError` raised when
an examined edge's target is not a step id). -/
def mergeCompatibleSteps_apply (spec : WorkflowSpec) : Option WorkflowSpec :=
  match mergeOuter spec.steps (initMergeState spec) with
  | none => none
  | some st =>
      if st.removed = [] then some spec
      else
        some { spec with
          steps := spec.steps.filterMap (fun s =>
            if s.id ∈ st.removed then none else st.stepById s.id)
          edges := buildNewEdges st (outgoingKeys spec)
          outputs := spec.outputs.map (rebindOutput st) }

/-- The image of an edge under the endpoint renaming `B -> A` that a fusion of
`B` into `A` induces (used to state the key-collision-freedom hypothesis). -/
def fusedEdgeImage (A B : String) (d : EdgeSpec) : EdgeSpec :=
  { source := if d.source = B then A else d.source
    target := if d.target = B then A else d.target
    condition := d.condition }

/-- The fusion-eligibility test of `MergeCompatibleStepsPass` expressed over
the spec itself (the pass evaluates the same conditions against its initial
state): unconditional edge, both endpoints Llm steps with equal model and
temperature, exactly one edge out of the source and exactly one edge into the
target. -/
def compatibleEdge (spec : WorkflowSpec) (e : EdgeSpec) : Bool :=
  !(strTruthy e.condition)
  && (match (initMergeState spec).stepById e.source,
        (initMergeState spec).stepById e.target with
      | some s, some t =>
          decide (s.type = StepType.llm) && decide (t.type = StepType.llm)
          && decide (s.config.model = t.config.model)
          && decide (s.config.temperature.getD 0 = t.config.temperature.getD 0)
      | _, _ => false)
  && decide (spec.edges.countP (fun d => d.source = e.source) = 1)
  && decide (spec.edges.countP (fun d => d.target = e.target) = 1)

/-! ## Retry-policy injection (`RetryPolicyInjectionPass.apply`) -/

/-- The per-step body of `RetryPolicyInjectionPass.apply`. -/
def injectRetry (s : StepSpec) : StepSpec :=
  let r := s.retry_policy
  let r1 : RetryPolicy :=
    match s.type with
    | .llm =>
        { r with max_retries := some (max 2 (r.max_retries.getD 0))
                 backoff_strategy := some (r.backoff_strategy.getD .exponential) }
    | .tool =>
        { r with max_retries := some (max 1 (r.max_retries.getD 0))
                 backoff_strategy := some (r.backoff_strategy.getD .fixed) }
    | _ =>
        { r with max_retries := some (max 1 (r.max_retries.getD 1))
                 backoff_strategy := some (r.backoff_strategy.getD .fixed) }
  let r2 : RetryPolicy :=
    { r1 with initial_delay_seconds := some (r1.initial_delay_seconds.getD 1)
              max_delay_seconds := some (r1.max_delay_seconds.getD 30) }
  { s with retry_policy := r2
           timeout_seconds := max 30 s.timeout_seconds }

/-- `RetryPolicyInjectionPass.apply`. -/
def retryPolicyInjection_apply (spec : WorkflowSpec) : WorkflowSpec :=
  { spec with steps := spec.steps.map injectRetry }

/-! ## The optimizer pipeline (`Optimizer.optimize`)

The claims about the pipeline quantify over its ordered pass list, so passes
are modelled abstractly: a name plus a `Spec -> Spec` function that may raise a
`SpecValidationError` or any other exception. -/

/-- Errors a pass can raise: a `SpecValidationError` or any other exception
(carrying its message). -/
inductive PassError
  | validation (msg : String)
  | other (msg : String)
deriving DecidableEq

/-- An optimization pass: its `name` attribute and its `apply`. -/
structure OptPass where
  name : String
  apply : WorkflowSpec → Except PassError WorkflowSpec

/-- The `for optimization_pass in self.passes` loop: apply each pass, record
its name in the trace; a `SpecValidationError` propagates unchanged, any other
exception is re-raised wrapped with the pass's name and original message. -/
def runPasses : List OptPass → WorkflowSpec → List String → Except PassError (WorkflowSpec × List String)
  | [], spec, trace => .ok (spec, trace)
  | p :: ps, spec, trace =>
      match p.apply spec with
      | .ok spec1 => runPasses ps spec1 (trace ++ [p.name])
      | .error (.validation m) => .error (.validation m)
      | .error (.other m) =>
          .error (.other ("Optimization pass " ++ p.name ++ " failed: " ++ m))

/-- `Optimizer.optimize`: run the passes, then store the applied pass names in
`metadata.optimization_trace`.  As in `checkSteps`, the single quotes the
source puts around the pass name in the wrapping message are omitted. -/
def optimize (passes : List OptPass) (spec : WorkflowSpec) : Except PassError WorkflowSpec :=
  match runPasses passes spec [] with
  | .error e => .error e
  | .ok (s, trace) =>
      .ok { s with metadata := { s.metadata with optimization_trace := some trace } }

/-! ## Specification-level graph relations

Used to state the claims; the definitions above are the code, these are the
mathematical notions the claims speak about. -/

/-- The spec's edge relation: some edge runs from `u` to `v`. -/
def edgeRelP (spec : WorkflowSpec) (u v : String) : Prop :=
  ∃ e ∈ spec.edges, e.source = u ∧ e.target = v

/-- `v` is reachable from `u` along zero or more edges. -/
def Reaches (spec : WorkflowSpec) (u v : String) : Prop :=
  Relation.ReflTransGen (edgeRelP spec) u v

/-- The spec's step/edge graph contains a (non-empty) directed cycle. -/
def SpecHasCycle (spec : WorkflowSpec) : Prop :=
  ∃ n, Relation.TransGen (edgeRelP spec) n n

/-! ## Concrete sample workflows (used to instantiate the theorems) -/

/-- A small valid workflow: two tool steps feeding an llm step. -/
def sampleSpecA : WorkflowSpec :=
  { name := "sample", description := "sample",
    steps :=
      [ { id := "A", type := .tool, config := { tool_name := some "t" } },
        { id := "B", type := .tool, config := { tool_name := some "t" } },
        { id := "C", type := .llm, config := { model := some "m" } } ],
    edges := [{ source := "A", target := "C" }, { source := "B", target := "C" }],
    outputs := [{ id := "out", source_step := some "C" }] }

/-- A workflow whose only step is `S` but whose single edge mentions the
non-step ids `X` and `Y`. -/
def sampleSpecDangling : WorkflowSpec :=
  { name := "sample", description := "sample",
    steps := [{ id := "S", type := .llm }],
    edges := [{ source := "X", target := "Y" }] }

/-- Two steps sharing the id `A`. -/
def sampleSpecDupIds : WorkflowSpec :=
  { name := "sample", description := "sample",
    steps := [{ id := "A", type := .llm }, { id := "A", type := .llm }] }

/-- The whitespace-stripped step ids `validate_workflow_spec` works with. -/
def strippedIds (spec : WorkflowSpec) : List String :=
  spec.steps.map (fun s => trimStr s.id)

/-- A workflow whose only edge names the unknown source `Z`. -/
def sampleSpecBadEdge : WorkflowSpec :=
  { name := "sample", description := "sample",
    steps := [{ id := "A", type := .llm }],
    edges := [{ source := "Z", target := "A" }] }

/-- A workflow with a whitespace-padded step id whose edge and output refer to
it by its stripped form. -/
def sampleSpecPadded : WorkflowSpec :=
  { name := "sample", description := "sample",
    steps := [{ id := " A ", type := .llm }, { id := "B", type := .llm }],
    edges := [{ source := "A", target := "B" }],
    outputs := [{ id := "o", source_step := some "A" }] }

/-- The distinct edge sources (used to bound the backward BFS of
dead-step elimination). -/
def allSources (spec : WorkflowSpec) : List String :=
  dictKeys (spec.edges.map (·.source))

/-- A diamond workflow: `P` fans out to `X` and `Y`, which rejoin at `Z`. -/
def sampleSpecDiamond : WorkflowSpec :=
  { name := "sample", description := "sample",
    steps :=
      [ { id := "P", type := .llm }, { id := "X", type := .llm },
        { id := "Y", type := .llm }, { id := "Z", type := .llm } ],
    edges :=
      [ { source := "P", target := "X" }, { source := "P", target := "Y" },
        { source := "X", target := "Z" }, { source := "Y", target := "Z" } ] }

/-- A workflow with a dead step `D`: only `A -> B` feeds the declared output. -/
def sampleSpecDead : WorkflowSpec :=
  { name := "sample", description := "sample",
    steps :=
      [ { id := "A", type := .llm }, { id := "B", type := .llm },
        { id := "D", type := .llm } ],
    edges := [{ source := "A", target := "B" }],
    outputs := [{ id := "o1", source_step := some "B" }] }

/-- Four llm steps forming two disjoint fusable pairs `a -> b` and `c -> d`. -/
def sampleSpec4 : WorkflowSpec :=
  { name := "sample", description := "sample",
    steps :=
      [ { id := "a", type := .llm, config := { model := some "m", prompt := some "p1" } },
        { id := "b", type := .llm, config := { model := some "m", prompt := some "p2" } },
        { id := "c", type := .llm, config := { model := some "m", prompt := some "p3" } },
        { id := "d", type := .llm, config := { model := some "m", prompt := some "p4" } } ],
    edges := [{ source := "a", target := "b" }, { source := "c", target := "d" }] }

/-- A single fusable pair `X -> Y` (the spec's Scenario B). -/
def sampleSpecFuse : WorkflowSpec :=
  { name := "sample", description := "sample",
    steps :=
      [ { id := "X", type := .llm, config := { model := some "m", prompt := some "a" } },
        { id := "Y", type := .llm, config := { model := some "m", prompt := some "b" } } ],
    edges := [{ source := "X", target := "Y" }],
    outputs := [{ id := "o", source_step := some "Y" }] }

/-- A pass that succeeds unchanged. -/
def passOk : OptPass := { name := "p1", apply := fun s => .ok s }

/-- A pass that raises a `SpecValidationError`. -/
def passVal : OptPass := { name := "pval", apply := fun _ => .error (.validation "boom") }

/-- A pass that raises a non-validation exception. -/
def passOther : OptPass := { name := "poth", apply := fun _ => .error (.other "broke") }

/-! # Theorems

## Generic facts about the helper functions -/

theorem mem_foldl_dictInsert (l : List String) :
    ∀ (acc : List String) (x : String),
      x ∈ l.foldl dictInsert acc ↔ x ∈ acc ∨ x ∈ l := by
  induction l with
  | nil => simp
  | cons a l ih =>
      intro acc x
      simp only [List.foldl_cons, ih, dictInsert]
      by_cases h : a ∈ acc
      · simp only [if_pos h, List.mem_cons]
        constructor
        · rintro (hx | hx)
          · exact Or.inl hx
          · exact Or.inr (Or.inr hx)
        · rintro (hx | rfl | hx)
          · exact Or.inl hx
          · exact Or.inl h
          · exact Or.inr hx
      · simp only [if_neg h, List.mem_append, List.mem_singleton, List.mem_cons]
        tauto

theorem nodup_foldl_dictInsert (l : List String) :
    ∀ (acc : List String), acc.Nodup → (l.foldl dictInsert acc).Nodup := by
  induction l with
  | nil => simpa using fun _ h => h
  | cons a l ih =>
      intro acc hacc
      simp only [List.foldl_cons, dictInsert]
      by_cases h : a ∈ acc
      · simpa [if_pos h] using ih acc hacc
      · refine ih _ ?_
        simp [List.nodup_append, hacc, h]

theorem mem_dictKeys {l : List String} {x : String} : x ∈ dictKeys l ↔ x ∈ l := by
  simp [dictKeys, mem_foldl_dictInsert]

theorem nodup_dictKeys (l : List String) : (dictKeys l).Nodup :=
  nodup_foldl_dictInsert l [] List.nodup_nil

theorem perm_insertSorted (x : String) (l : List String) :
    (insertSorted x l).Perm (x :: l) := by
  induction l with
  | nil => simp [insertSorted]
  | cons y ys ih =>
      simp only [insertSorted]
      by_cases h : strLe x y = true
      · simp [h]
      · simp only [h, if_false]
        exact ((ih.cons y).trans (List.Perm.swap x y ys))

theorem perm_sortStr (l : List String) : (sortStr l).Perm l := by
  induction l with
  | nil => simp [sortStr]
  | cons x xs ih =>
      simp only [sortStr, List.foldr_cons]
      exact (perm_insertSorted x _).trans (ih.cons x)

theorem mem_sortStr {l : List String} {x : String} : x ∈ sortStr l ↔ x ∈ l :=
  (perm_sortStr l).mem_iff

theorem nodup_sortStr {l : List String} (h : l.Nodup) : (sortStr l).Nodup :=
  (perm_sortStr l).symm.nodup h

theorem mem_foldl_edgeEndpoints (edges : List EdgeSpec) :
    ∀ (init : List String) (x : String),
      x ∈ edges.foldl (fun l e => l ++ [e.source, e.target]) init ↔
        x ∈ init ∨ ∃ e ∈ edges, e.source = x ∨ e.target = x := by
  induction edges with
  | nil => simp
  | cons e es ih =>
      intro init x
      simp only [List.foldl_cons, ih, List.mem_append, List.mem_cons,
        List.mem_singleton, List.not_mem_nil]
      constructor
      · rintro ((hx | rfl | hx) | ⟨d, hd, hx⟩)
        · exact Or.inl hx
        · exact Or.inr ⟨e, Or.inl rfl, Or.inl rfl⟩
        · rcases hx with rfl | hx
          · exact Or.inr ⟨e, Or.inl rfl, Or.inr rfl⟩
          · exact hx.elim
        · exact Or.inr ⟨d, Or.inr hd, hx⟩
      · rintro (hx | ⟨d, rfl | hd, hx⟩)
        · exact Or.inl (Or.inl hx)
        · rcases hx with rfl | rfl
          · exact Or.inl (Or.inr (Or.inl rfl))
          · exact Or.inl (Or.inr (Or.inr (Or.inl rfl)))
        · exact Or.inr ⟨d, hd, hx⟩

theorem mem_specNodes {spec : WorkflowSpec} {x : String} :
    x ∈ specNodes spec ↔
      x ∈ step_ids spec ∨ ∃ e ∈ spec.edges, e.source = x ∨ e.target = x := by
  simp [specNodes, mem_dictKeys, mem_foldl_edgeEndpoints]

theorem nodup_specNodes (spec : WorkflowSpec) : (specNodes spec).Nodup :=
  nodup_dictKeys _

theorem mem_succList {spec : WorkflowSpec} {u v : String} :
    v ∈ succList spec u ↔ ∃ e ∈ spec.edges, e.source = u ∧ e.target = v := by
  simp only [succList, mem_sortStr, mem_dictKeys, List.mem_map, List.mem_filter]
  constructor
  · rintro ⟨e, ⟨he, hs⟩, rfl⟩
    exact ⟨e, he, by simpa using hs, rfl⟩
  · rintro ⟨e, he, hs, rfl⟩
    exact ⟨e, ⟨he, by simpa using hs⟩, rfl⟩

theorem nodup_succList (spec : WorkflowSpec) (u : String) : (succList spec u).Nodup :=
  nodup_sortStr (nodup_dictKeys _)

theorem edge_source_mem_specNodes {spec : WorkflowSpec} {e : EdgeSpec}
    (he : e ∈ spec.edges) : e.source ∈ specNodes spec :=
  mem_specNodes.mpr (Or.inr ⟨e, he, Or.inl rfl⟩)

theorem edge_target_mem_specNodes {spec : WorkflowSpec} {e : EdgeSpec}
    (he : e ∈ spec.edges) : e.target ∈ specNodes spec :=
  mem_specNodes.mpr (Or.inr ⟨e, he, Or.inr rfl⟩)

theorem edgeRelP_iff_mem_succList {spec : WorkflowSpec} {u v : String} :
    edgeRelP spec u v ↔ v ∈ succList spec u := by
  simp [edgeRelP, mem_succList]

theorem edgeRelP_source_mem {spec : WorkflowSpec} {u v : String}
    (h : edgeRelP spec u v) : u ∈ specNodes spec := by
  obtain ⟨e, he, hs, _⟩ := h
  simpa [hs] using edge_source_mem_specNodes he

theorem edgeRelP_target_mem {spec : WorkflowSpec} {u v : String}
    (h : edgeRelP spec u v) : v ∈ specNodes spec := by
  obtain ⟨e, he, _, ht⟩ := h
  simpa [ht] using edge_target_mem_specNodes he

/-! ## C5: retry-policy injection defaults -/

/-- C5: after RetryPolicyInjection every step of the result is the injected
image of a source step; every Llm step gets `max_retries >= 2` and, when its
backoff was unset, Exponential backoff; every Tool step and every other step
gets `max_retries >= 1` and, when unset, Fixed backoff; unset
`initial_delay_seconds`/`max_delay_seconds` become 1.0/30.0; and every step
ends with `timeout_seconds >= 30`. -/
theorem C5_retry_policy_injection (spec : WorkflowSpec) (s : StepSpec)
    (hs : s ∈ spec.steps) :
    injectRetry s ∈ (retryPolicyInjection_apply spec).steps
    ∧ (∀ t ∈ (retryPolicyInjection_apply spec).steps, ∃ u ∈ spec.steps, t = injectRetry u)
    ∧ (s.type = .llm →
        (∃ m, (injectRetry s).retry_policy.max_retries = some m ∧ 2 ≤ m)
        ∧ (s.retry_policy.backoff_strategy = none →
            (injectRetry s).retry_policy.backoff_strategy = some .exponential))
    ∧ (s.type ≠ .llm →
        (∃ m, (injectRetry s).retry_policy.max_retries = some m ∧ 1 ≤ m)
        ∧ (s.retry_policy.backoff_strategy = none →
            (injectRetry s).retry_policy.backoff_strategy = some .fixed))
    ∧ (s.retry_policy.initial_delay_seconds = none →
        (injectRetry s).retry_policy.initial_delay_seconds = some 1)
    ∧ (s.retry_policy.max_delay_seconds = none →
        (injectRetry s).retry_policy.max_delay_seconds = some 30)
    ∧ 30 ≤ (injectRetry s).timeout_seconds := by
  refine ⟨List.mem_map_of_mem injectRetry hs, ?_, ?_, ?_, ?_, ?_, ?_⟩
  · intro t ht
    rcases List.mem_map.mp ht with ⟨u, hu, rfl⟩
    exact ⟨u, hu, rfl⟩
  · intro hty
    constructor
    · exact ⟨max 2 (s.retry_policy.max_retries.getD 0), by simp [injectRetry, hty], le_max_left _ _⟩
    · intro hb
      simp [injectRetry, hty, hb]
  · intro hty
    constructor
    · cases h : s.type with
      | llm => exact absurd h hty
      | tool =>
          exact ⟨max 1 (s.retry_policy.max_retries.getD 0), by simp [injectRetry, h], le_max_left _ _⟩
      | condition =>
          exact ⟨max 1 (s.retry_policy.max_retries.getD 1), by simp [injectRetry, h], le_max_left _ _⟩
      | transform =>
          exact ⟨max 1 (s.retry_policy.max_retries.getD 1), by simp [injectRetry, h], le_max_left _ _⟩
    · intro hb
      cases h : s.type with
      | llm => exact absurd h hty
      | tool => simp [injectRetry, h, hb]
      | condition => simp [injectRetry, h, hb]
      | transform => simp [injectRetry, h, hb]
  · intro hi
    cases h : s.type <;> simp [injectRetry, h, hi]
  · intro hi
    cases h : s.type <;> simp [injectRetry, h, hi]
  · simpa [injectRetry] using le_max_left (30 : Int) s.timeout_seconds

/-- C5 witness: the theorem applied to a concrete llm step of `sampleSpecA`. -/
theorem C5_retry_policy_injection_witness :
    { id := "C", type := .llm, config := { model := some "m" } } ∈ sampleSpecA.steps
    ∧ (∃ m, (injectRetry { id := "C", type := .llm, config := { model := some "m" } }).retry_policy.max_retries
          = some m ∧ 2 ≤ m)
    ∧ 30 ≤ (injectRetry { id := "C", type := .llm, config := { model := some "m" } }).timeout_seconds := by
  refine ⟨by decide, ?_, ?_⟩
  · exact ((C5_retry_policy_injection sampleSpecA _ (by decide)).2.2.1 rfl).1
  · exact (C5_retry_policy_injection sampleSpecA _ (by decide)).2.2.2.2.2.2

/-! ## C7: validation idempotence -/

theorem validate_ok_eq {spec out : WorkflowSpec}
    (h : validate_workflow_spec spec = .ok out) : out = spec := by
  simp only [validate_workflow_spec] at h
  split at h
  · cases h
  · split at h
    · cases h
    · split at h
      · cases h
      · split at h
        · cases h
        · split at h
          · cases h
          · split at h
            · cases h
            · split at h
              · cases h
              · split at h
                · cases h
                · exact ((Except.ok.injEq _ _).mp h).symm

/-- C7: validating a valid spec returns it unchanged, hence validation is
idempotent on valid specs. -/
theorem C7_validate_idempotent (spec out : WorkflowSpec)
    (h : validate_workflow_spec spec = .ok out) :
    out = spec ∧ validate_workflow_spec out = .ok out := by
  obtain rfl := validate_ok_eq h
  exact ⟨rfl, h⟩

/-- C7 witness: the theorem applied to the concrete valid `sampleSpecA`. -/
theorem C7_validate_idempotent_witness :
    sampleSpecA = sampleSpecA
    ∧ validate_workflow_spec sampleSpecA = .ok sampleSpecA :=
  C7_validate_idempotent sampleSpecA sampleSpecA (by rfl)

/-! ## C9: has_path on self and on unknown ids -/

/-- C9 counterexample: the adjacency dict also contains edge endpoints that
are not step ids, so `has_path` can return `true` for a source that is not a
step id (here the dangling edge `X -> Y`), refuting the claim that it returns
`false` whenever an argument is not a step id. -/
theorem C9_counterexample :
    has_path sampleSpecDangling "X" "Y" = true
    ∧ "X" ∉ step_ids sampleSpecDangling := by
  exact ⟨by rfl, by decide⟩

/-- C9 (amended): `has_path spec a a = true` for every step id `a`, even
isolated ones; and `has_path spec a b = false` whenever `a` or `b` is not a
node of the adjacency graph (a step id or an edge endpoint). -/
theorem C9_amended (spec : WorkflowSpec) :
    (∀ a ∈ step_ids spec, has_path spec a a = true)
    ∧ (∀ a b : String, (a ∉ specNodes spec ∨ b ∉ specNodes spec) →
        has_path spec a b = false) := by
  constructor
  · intro a ha
    have hn : a ∈ specNodes spec := mem_specNodes.mpr (Or.inl ha)
    have hne : specNodes spec ≠ [] := by
      intro h
      rw [h] at hn
      exact absurd hn (List.not_mem_nil a)
    obtain ⟨k, hk⟩ : ∃ k, ((specNodes spec).length + 1) * ((specNodes spec).length + 1) = k + 1 :=
      ⟨((specNodes spec).length + 1) * (specNodes spec).length + (specNodes spec).length, by ring⟩
    rw [has_path, if_pos ⟨hn, hn⟩, hk]
    simp [hasPathLoop]
  · intro a b hab
    rw [has_path, if_neg]
    intro ⟨ha, hb⟩
    rcases hab with h | h
    · exact h ha
    · exact h hb

/-- C9 witness: the amended theorem applied to `sampleSpecA` at the isolated
step id check and at an id absent from the graph. -/
theorem C9_amended_witness :
    has_path sampleSpecA "A" "A" = true ∧ has_path sampleSpecA "Q" "A" = false := by
  constructor
  · exact (C9_amended sampleSpecA).1 "A" (by decide)
  · exact (C9_amended sampleSpecA).2 "Q" "A" (Or.inl (by decide))

/-! ## C6: optimizer trace and error propagation -/

theorem runPasses_ok_trace :
    ∀ (passes : List OptPass) (spec out : WorkflowSpec) (trace tr : List String),
      runPasses passes spec trace = .ok (out, tr) →
      tr = trace ++ passes.map (fun p => p.name) := by
  intro passes
  induction passes with
  | nil =>
      intro spec out trace tr h
      simp only [runPasses] at h
      cases h
      simp
  | cons p ps ih =>
      intro spec out trace tr h
      simp only [runPasses] at h
      cases happ : p.apply spec with
      | ok s1 =>
          rw [happ] at h
          have := ih s1 out (trace ++ [p.name]) tr h
          simpa using this
      | error e =>
          rw [happ] at h
          cases e <;> cases h

theorem runPasses_append (l1 l2 : List OptPass) :
    ∀ (spec : WorkflowSpec) (trace : List String),
      runPasses (l1 ++ l2) spec trace =
        match runPasses l1 spec trace with
        | .ok (s, tr) => runPasses l2 s tr
        | .error e => .error e := by
  induction l1 with
  | nil => intro spec trace; simp [runPasses]
  | cons p ps ih =>
      intro spec trace
      simp only [List.cons_append, runPasses]
      cases happ : p.apply spec with
      | ok s1 => exact ih s1 (trace ++ [p.name])
      | error e => cases e <;> simp

/-- C6: when every pass succeeds, the optimizer stores the ordered list of
applied pass names in `metadata.optimization_trace`; a validation error raised
inside a pass propagates unchanged; any other exception raised inside a pass
is re-raised wrapped with that pass's name and the original message. -/
theorem C6_optimizer_trace_and_errors (passes : List OptPass) (spec : WorkflowSpec) :
    (∀ out, optimize passes spec = .ok out →
        out.metadata.optimization_trace = some (passes.map (fun p => p.name)))
    ∧ (∀ (pre suf : List OptPass) (p : OptPass) (s1 : WorkflowSpec) (tr : List String) (m : String),
        passes = pre ++ p :: suf →
        runPasses pre spec [] = .ok (s1, tr) →
        p.apply s1 = .error (.validation m) →
        optimize passes spec = .error (.validation m))
    ∧ (∀ (pre suf : List OptPass) (p : OptPass) (s1 : WorkflowSpec) (tr : List String) (m : String),
        passes = pre ++ p :: suf →
        runPasses pre spec [] = .ok (s1, tr) →
        p.apply s1 = .error (.other m) →
        optimize passes spec =
          .error (.other ("Optimization pass " ++ p.name ++ " failed: " ++ m))) := by
  refine ⟨?_, ?_, ?_⟩
  · intro out h
    unfold optimize at h
    cases hrun : runPasses passes spec [] with
    | ok st =>
        rw [hrun] at h
        obtain ⟨s, tr⟩ := st
        cases h
        simpa using runPasses_ok_trace passes spec s [] tr hrun
    | error e =>
        rw [hrun] at h
        cases h
  · rintro pre suf p s1 tr m rfl hpre happ
    unfold optimize
    rw [runPasses_append, hpre]
    simp [runPasses, happ]
  · rintro pre suf p s1 tr m rfl hpre happ
    unfold optimize
    rw [runPasses_append, hpre]
    simp [runPasses, happ]

/-- C6 witness: the theorem applied to concrete pass lists over an empty
workflow — a successful run records the trace, a validation error passes
through, and another error is wrapped with the pass name. -/
theorem C6_optimizer_trace_and_errors_witness :
    ({ metadata := { optimization_trace := some ["p1"] } } : WorkflowSpec).metadata.optimization_trace
      = some ([passOk].map (fun p => p.name))
    ∧ optimize [passOk, passVal] {} = .error (.validation "boom")
    ∧ optimize [passOk, passOther] {}
        = .error (.other ("Optimization pass " ++ passOther.name ++ " failed: " ++ "broke")) := by
  refine ⟨?_, ?_, ?_⟩
  · exact (C6_optimizer_trace_and_errors [passOk] {}).1 _ rfl
  · exact (C6_optimizer_trace_and_errors [passOk, passVal] {}).2.1 [passOk] [] passVal {} ["p1"] "boom" rfl rfl rfl
  · exact (C6_optimizer_trace_and_errors [passOk, passOther] {}).2.2 [passOk] [] passOther {} ["p1"] "broke" rfl rfl rfl

/-! ## C8: validation error ordering and messages -/

theorem length_ne_dedup_of_not_nodup {l : List String} (h : ¬ l.Nodup) :
    l.length ≠ l.dedup.length := by
  intro hlen
  exact h (List.dedup_eq_self.mp ((l.dedup_sublist).eq_of_length hlen.symm))

theorem checkEdges_first_bad_source (ids : List String) :
    ∀ (es1 : List EdgeSpec) (e : EdgeSpec) (es2 : List EdgeSpec),
      (∀ d ∈ es1, d.source ∈ ids ∧ d.target ∈ ids) →
      e.source ∉ ids →
      checkEdges ids (es1 ++ e :: es2) = some ("Edge source does not exist: " ++ e.source) := by
  intro es1
  induction es1 with
  | nil =>
      intro e es2 _ hbad
      simp [checkEdges, hbad]
  | cons d ds ih =>
      intro e es2 hgood hbad
      have hd := hgood d (List.mem_cons_self d ds)
      simp only [List.cons_append, checkEdges, if_neg (not_not_intro hd.1), if_neg (not_not_intro hd.2)]
      exact ih e es2 (fun x hx => hgood x (List.mem_cons_of_mem d hx)) hbad

/-- C8 counterexample: the duplicate-id error message is the fixed string
`"Step IDs must be unique."`, which does not mention the duplicated id `"A"`
at all — refuting the claim that the message identifies the failing id(s). -/
theorem C8_counterexample :
    validate_workflow_spec sampleSpecDupIds = .error "Step IDs must be unique."
    ∧ 'A' ∉ "Step IDs must be unique.".data := by
  exact ⟨by rfl, by decide⟩

/-- C8 (amended): validation checks run in the fixed source order and the
first violation determines the error; a duplicate stripped id raises the fixed
message `"Step IDs must be unique."` (which names the invariant but not the
offending id), while an edge whose source is unknown raises a message citing
that source id (the first offending edge wins). -/
theorem C8_amended (spec : WorkflowSpec) :
    (spec.steps ≠ [] →
      (strippedIds spec).length ≠ (strippedIds spec).dedup.length →
      validate_workflow_spec spec = .error "Step IDs must be unique.")
    ∧ (∀ (es1 : List EdgeSpec) (e : EdgeSpec) (es2 : List EdgeSpec),
        spec.steps ≠ [] →
        (strippedIds spec).length = (strippedIds spec).dedup.length →
        (strippedIds spec).any (fun i => i.isEmpty) = false →
        spec.edges = es1 ++ e :: es2 →
        (∀ d ∈ es1, d.source ∈ strippedIds spec ∧ d.target ∈ strippedIds spec) →
        e.source ∉ strippedIds spec →
        validate_workflow_spec spec = .error ("Edge source does not exist: " ++ e.source)) := by
  constructor
  · intro hne hdup
    simp only [validate_workflow_spec, if_neg hne]
    rw [if_pos]
    simpa [strippedIds] using hdup
  · intro es1 e es2 hne hlen hemp hsplit hgood hbad
    simp only [validate_workflow_spec, if_neg hne]
    rw [if_neg, if_neg]
    · rw [hsplit,
        checkEdges_first_bad_source _ es1 e es2
          (by simpa [strippedIds] using hgood) (by simpa [strippedIds] using hbad)]
    · simpa [strippedIds] using hemp
    · simpa [strippedIds] using (not_not_intro hlen)

/-- C8 witness: the amended theorem applied to a concrete duplicate-id spec
and to a concrete spec with unknown edge source `Z`. -/
theorem C8_amended_witness :
    validate_workflow_spec sampleSpecDupIds = .error "Step IDs must be unique."
    ∧ validate_workflow_spec sampleSpecBadEdge = .error ("Edge source does not exist: " ++ "Z") := by
  constructor
  · exact (C8_amended sampleSpecDupIds).1 (by decide) (by decide)
  · exact (C8_amended sampleSpecBadEdge).2 [] { source := "Z", target := "A" } []
      (by decide) (by decide) (by decide) (by decide)
      (by intro d hd; cases hd) (by decide)

/-! ## C10: whitespace handling in validation -/

/-- C10: step ids are compared whitespace-stripped: an id that strips to the
empty string is rejected as empty (when ids are otherwise distinct), two steps
whose ids strip to the same string are rejected as duplicates, and edge/output
references are checked against the stripped id set, so a reference written as
the stripped form of a padded id passes validation
(concretely: `sampleSpecPadded`, step id `" A "` referenced as `"A"`). -/
theorem C10_stripped_ids (spec : WorkflowSpec) :
    (spec.steps ≠ [] →
      (strippedIds spec).length = (strippedIds spec).dedup.length →
      (strippedIds spec).any (fun i => i.isEmpty) = true →
      validate_workflow_spec spec = .error "Step IDs cannot be empty.")
    ∧ (∀ (p q r : List StepSpec) (a b : StepSpec),
        spec.steps = p ++ a :: q ++ b :: r →
        trimStr a.id = trimStr b.id →
        validate_workflow_spec spec = .error "Step IDs must be unique.")
    ∧ validate_workflow_spec sampleSpecPadded = .ok sampleSpecPadded := by
  refine ⟨?_, ?_, by rfl⟩
  · intro hne hlen hemp
    simp only [validate_workflow_spec, if_neg hne]
    rw [if_neg, if_pos]
    · simpa [strippedIds] using hemp
    · simpa [strippedIds] using (not_not_intro hlen)
  · intro p q r a b hsplit htrim
    have hne : spec.steps ≠ [] := by
      rw [hsplit]
      intro h
      cases (List.append_eq_nil.mp h).2
    have hcount : 2 ≤ (strippedIds spec).count (trimStr b.id) := by
      have : strippedIds spec
          = (p.map fun s => trimStr s.id) ++ trimStr a.id ::
            ((q.map fun s => trimStr s.id) ++ trimStr b.id :: (r.map fun s => trimStr s.id)) := by
        simp [strippedIds, hsplit]
      rw [this, htrim]
      simp [List.count_append, List.count_cons_self]
      omega
    have hdup : ¬ (strippedIds spec).Nodup := by
      intro hnd
      have := List.nodup_iff_count_le_one.mp hnd (trimStr b.id)
      omega
    simp only [validate_workflow_spec, if_neg hne]
    rw [if_pos]
    simpa [strippedIds] using length_ne_dedup_of_not_nodup hdup

/-- C10 witness: the theorem applied at concrete instances — a whitespace-only
id is rejected as empty, ids differing only in padding are rejected as
duplicates, and the padded-id spec validates. -/
theorem C10_stripped_ids_witness :
    validate_workflow_spec
        { name := "w", description := "w", steps := [{ id := "  ", type := .llm }] }
      = .error "Step IDs cannot be empty."
    ∧ validate_workflow_spec
        { name := "w", description := "w",
          steps := [{ id := "A ", type := .llm }, { id := " A", type := .llm }] }
      = .error "Step IDs must be unique."
    ∧ validate_workflow_spec sampleSpecPadded = .ok sampleSpecPadded := by
  refine ⟨?_, ?_, ?_⟩
  · exact (C10_stripped_ids _).1 (by decide) (by decide) (by decide)
  · exact (C10_stripped_ids _).2.1 [] [] [] { id := "A ", type := .llm } { id := " A", type := .llm }
      (by decide) (by decide)
  · exact (C10_stripped_ids sampleSpecPadded).2.2

/-! ## C4: conservativeness of parallel-group detection

The key fact is the completeness of the BFS in `has_path`: when it answers
`false`, no path exists.  At exit the visited set is closed under successors,
contains the source, and excludes the target. -/

theorem hasPathLoop_false_closed (spec : WorkflowSpec) (target : String) :
    ∀ (fuel : Nat) (queue visited : List String),
      visited.Nodup →
      (∀ v ∈ visited, v ∈ specNodes spec) →
      (∀ q ∈ queue, q ∈ specNodes spec) →
      target ∉ visited →
      (∀ v ∈ visited, ∀ s ∈ succList spec v, s ∈ visited ∨ s ∈ queue) →
      ((specNodes spec).length - visited.length) * ((specNodes spec).length + 1)
        + queue.length ≤ fuel →
      hasPathLoop spec target fuel queue visited = false →
      ∃ V : List String,
        (∀ q ∈ queue, q ∈ V) ∧ (∀ v ∈ visited, v ∈ V) ∧
        (∀ v ∈ V, ∀ s ∈ succList spec v, s ∈ V) ∧ target ∉ V := by
  intro fuel
  induction fuel with
  | zero =>
      intro queue visited _ _ _ htv hclose hfuel _
      have hq : queue = [] := by
        cases queue with
        | nil => rfl
        | cons q qs => simp at hfuel
      subst hq
      refine ⟨visited, by simp, fun v hv => hv, ?_, htv⟩
      intro v hv s hs
      rcases hclose v hv s hs with h | h
      · exact h
      · cases h
  | succ fuel ih =>
      intro queue visited hnd hvset hqset htv hclose hfuel hrun
      match queue with
      | [] =>
          refine ⟨visited, by simp, fun v hv => hv, ?_, htv⟩
          intro v hv s hs
          rcases hclose v hv s hs with h | h
          · exact h
          · cases h
      | current :: rest =>
          by_cases hct : current = target
          · rw [hasPathLoop, if_pos hct] at hrun
            cases hrun
          · by_cases hcv : current ∈ visited
            · rw [hasPathLoop, if_neg hct, if_pos hcv] at hrun
              have hfuel2 :
                  ((specNodes spec).length - visited.length) * ((specNodes spec).length + 1)
                    + rest.length ≤ fuel := by
                simp only [List.length_cons] at hfuel
                omega
              have hclose2 : ∀ v ∈ visited, ∀ s ∈ succList spec v, s ∈ visited ∨ s ∈ rest := by
                intro v hv s hs
                rcases hclose v hv s hs with h | h
                · exact Or.inl h
                · rcases List.mem_cons.mp h with rfl | h
                  · exact Or.inl hcv
                  · exact Or.inr h
              obtain ⟨V, hVq, hVv, hVc, hVt⟩ :=
                ih rest visited hnd hvset (fun q hq => hqset q (List.mem_cons_of_mem _ hq))
                  htv hclose2 hfuel2 hrun
              exact ⟨V, fun q hq => (List.mem_cons.mp hq).elim (fun h => h ▸ hVv current hcv) (hVq q),
                hVv, hVc, hVt⟩
            · rw [hasPathLoop, if_neg hct, if_neg hcv] at hrun
              have hcn : current ∈ specNodes spec := hqset current (List.mem_cons_self _ _)
              have hnd2 : (visited ++ [current]).Nodup := by
                simp [List.nodup_append, hnd, hcv]
              have hvset2 : ∀ v ∈ visited ++ [current], v ∈ specNodes spec := by
                intro v hv
                rcases List.mem_append.mp hv with h | h
                · exact hvset v h
                · rcases List.mem_singleton.mp h with rfl
                  exact hcn
              have hqset2 : ∀ q ∈ rest ++ (succList spec current).filter
                  (fun nxt => nxt ∉ visited ++ [current]), q ∈ specNodes spec := by
                intro q hq
                rcases List.mem_append.mp hq with h | h
                · exact hqset q (List.mem_cons_of_mem _ h)
                · have := (List.mem_filter.mp h).1
                  obtain ⟨e, he, _, ht⟩ := mem_succList.mp this
                  exact ht ▸ edge_target_mem_specNodes he
              have htv2 : target ∉ visited ++ [current] := by
                simp only [List.mem_append, List.mem_singleton]
                rintro (h | rfl)
                · exact htv h
                · exact hct rfl
              have hclose2 : ∀ v ∈ visited ++ [current], ∀ s ∈ succList spec v,
                  s ∈ visited ++ [current] ∨ s ∈ rest ++ (succList spec current).filter
                    (fun nxt => nxt ∉ visited ++ [current]) := by
                intro v hv s hs
                rcases List.mem_append.mp hv with h | h
                · rcases hclose v h s hs with h2 | h2
                  · exact Or.inl (List.mem_append.mpr (Or.inl h2))
                  · rcases List.mem_cons.mp h2 with rfl | h2
                    · exact Or.inl (by simp)
                    · exact Or.inr (List.mem_append.mpr (Or.inl h2))
                · have hveq : v = current := List.mem_singleton.mp h
                  subst hveq
                  by_cases hsv : s ∈ visited ++ [v]
                  · exact Or.inl hsv
                  · exact Or.inr (List.mem_append.mpr (Or.inr (List.mem_filter.mpr ⟨hs, by simpa using hsv⟩)))
              have hvlt : visited.length < (specNodes spec).length := by
                have : (visited ++ [current]).length ≤ (specNodes spec).length :=
                  (List.subperm_of_subset hnd2 hvset2).length_le
                simp at this
                omega
              have hsucclen : ((succList spec current).filter
                  (fun nxt => nxt ∉ visited ++ [current])).length ≤ (specNodes spec).length := by
                refine List.Subperm.length_le (List.subperm_of_subset ?_ ?_)
                · exact (nodup_succList spec current).filter _
                · intro s hs
                  have := (List.mem_filter.mp hs).1
                  obtain ⟨e, he, _, ht⟩ := mem_succList.mp this
                  exact ht ▸ edge_target_mem_specNodes he
              have hfuel2 :
                  ((specNodes spec).length - (visited ++ [current]).length)
                      * ((specNodes spec).length + 1)
                    + (rest ++ (succList spec current).filter
                        (fun nxt => nxt ∉ visited ++ [current])).length ≤ fuel := by
                have e1 : (visited ++ [current]).length = visited.length + 1 := by simp
                have e2 : (rest ++ (succList spec current).filter
                    (fun nxt => nxt ∉ visited ++ [current])).length
                    = rest.length + ((succList spec current).filter
                        (fun nxt => nxt ∉ visited ++ [current])).length := by simp
                rw [e1, e2]
                have hsplit : (specNodes spec).length - visited.length
                    = ((specNodes spec).length - (visited.length + 1)) + 1 := by omega
                rw [hsplit, Nat.succ_mul] at hfuel
                simp only [List.length_cons] at hfuel
                omega
              obtain ⟨V, hVq, hVv, hVc, hVt⟩ :=
                ih _ _ hnd2 hvset2 hqset2 htv2 hclose2 hfuel2 hrun
              refine ⟨V, ?_, fun v hv => hVv v (List.mem_append.mpr (Or.inl hv)), hVc, hVt⟩
              intro q hq
              rcases List.mem_cons.mp hq with rfl | hq
              · exact hVv q (List.mem_append.mpr (Or.inr (List.mem_singleton.mpr rfl)))
              · exact hVq q (List.mem_append.mpr (Or.inl hq))

/-- Completeness of `has_path`: a `false` answer on graph nodes means there
really is no path. -/
theorem not_reaches_of_hasPath_false {spec : WorkflowSpec} {a b : String}
    (ha : a ∈ specNodes spec) (hb : b ∈ specNodes spec)
    (h : has_path spec a b = false) : ¬ Reaches spec a b := by
  rw [has_path, if_pos ⟨ha, hb⟩] at h
  have hfuel : ((specNodes spec).length - ([] : List String).length)
      * ((specNodes spec).length + 1) + ([a] : List String).length
      ≤ ((specNodes spec).length + 1) * ((specNodes spec).length + 1) := by
    simp only [List.length_nil, Nat.sub_zero, List.length_singleton]
    nlinarith [(specNodes spec).length.zero_le]
  obtain ⟨V, hVq, _, hVc, hVt⟩ :=
    hasPathLoop_false_closed spec b _ [a] [] List.nodup_nil (by simp)
      (by intro q hq; rcases List.mem_singleton.mp hq with rfl; exact ha)
      (by simp) (by simp) hfuel h
  intro hreach
  have haV : a ∈ V := hVq a (List.mem_singleton.mpr rfl)
  have aux : ∀ u v, Reaches spec u v → u ∈ V → v ∈ V := by
    intro u v hr
    induction hr with
    | refl => exact fun h => h
    | tail h1 e ih => exact fun hu => hVc _ (ih hu) _ (edgeRelP_iff_mem_succList.mp e)
  exact hVt (aux a b hreach haV)

theorem mem_admitFold (spec : WorkflowSpec) :
    ∀ (cs acc : List String) (x : String),
      x ∈ cs.foldl (fun ind child =>
        if ind.all (fun other =>
            !has_path spec child other && !has_path spec other child)
        then ind ++ [child] else ind) acc →
      x ∈ acc ∨ x ∈ cs := by
  intro cs
  induction cs with
  | nil => intro acc x h; exact Or.inl h
  | cons c cs ih =>
      intro acc x h
      simp only [List.foldl_cons] at h
      by_cases hc : acc.all (fun other =>
          !has_path spec c other && !has_path spec other c)
      · rw [if_pos hc] at h
        rcases ih _ x h with h2 | h2
        · rcases List.mem_append.mp h2 with h3 | h3
          · exact Or.inl h3
          · rcases List.mem_singleton.mp h3 with rfl
            exact Or.inr (List.mem_cons_self _ _)
        · exact Or.inr (List.mem_cons_of_mem _ h2)
      · rw [if_neg hc] at h
        rcases ih _ x h with h2 | h2
        · exact Or.inl h2
        · exact Or.inr (List.mem_cons_of_mem _ h2)

theorem pairwise_admitFold (spec : WorkflowSpec) :
    ∀ (cs acc : List String),
      acc.Pairwise (fun u v => has_path spec u v = false ∧ has_path spec v u = false) →
      (cs.foldl (fun ind child =>
        if ind.all (fun other =>
            !has_path spec child other && !has_path spec other child)
        then ind ++ [child] else ind) acc).Pairwise
          (fun u v => has_path spec u v = false ∧ has_path spec v u = false) := by
  intro cs
  induction cs with
  | nil => intro acc h; exact h
  | cons c cs ih =>
      intro acc hacc
      simp only [List.foldl_cons]
      by_cases hc : acc.all (fun other =>
          !has_path spec c other && !has_path spec other c)
      · rw [if_pos hc]
        refine ih _ (List.pairwise_append.mpr ⟨hacc, List.pairwise_singleton _ _, ?_⟩)
        intro u hu v hv
        rcases List.mem_singleton.mp hv with rfl
        have := List.all_eq_true.mp hc u hu
        simp only [Bool.and_eq_true, Bool.not_eq_true'] at this
        exact ⟨this.2, this.1⟩
      · rw [if_neg hc]
        exact ih _ hacc

theorem mem_groupsFold (spec : WorkflowSpec) :
    ∀ (parents : List String) (acc : List (List String)) (g : List String),
      g ∈ parents.foldl (fun groups parent =>
        let children := succList spec parent
        if children.length < 2 then groups
        else
          let independent := admitChildren spec children
          if 1 < independent.length then groups ++ [independent] else groups) acc →
      g ∈ acc ∨ ∃ parent ∈ parents,
        ¬ (succList spec parent).length < 2
        ∧ g = admitChildren spec (succList spec parent)
        ∧ 1 < g.length := by
  intro parents
  induction parents with
  | nil => intro acc g h; exact Or.inl h
  | cons p ps ih =>
      intro acc g h
      simp only [List.foldl_cons] at h
      by_cases h2 : (succList spec p).length < 2
      · rw [if_pos h2] at h
        rcases ih _ g h with h3 | ⟨parent, hp, hres⟩
        · exact Or.inl h3
        · exact Or.inr ⟨parent, List.mem_cons_of_mem _ hp, hres⟩
      · rw [if_neg h2] at h
        by_cases h3 : 1 < (admitChildren spec (succList spec p)).length
        · rw [if_pos h3] at h
          rcases ih _ g h with h4 | ⟨parent, hp, hres⟩
          · rcases List.mem_append.mp h4 with h5 | h5
            · exact Or.inl h5
            · rcases List.mem_singleton.mp h5 with rfl
              exact Or.inr ⟨p, List.mem_cons_self _ _, h2, rfl, h3⟩
          · exact Or.inr ⟨parent, List.mem_cons_of_mem _ hp, hres⟩
        · rw [if_neg h3] at h
          rcases ih _ g h with h4 | ⟨parent, hp, hres⟩
          · exact Or.inl h4
          · exact Or.inr ⟨parent, List.mem_cons_of_mem _ hp, hres⟩

/-- C4: every reported parallel group consists of at least two children of a
common parent, and no directed path (in either direction) connects two
distinct members of the same group. -/
theorem C4_parallel_groups (spec : WorkflowSpec) (g : List String)
    (hg : g ∈ find_parallel_groups spec) :
    (∃ parent ∈ specNodes spec, 2 ≤ g.length ∧ ∀ x ∈ g, x ∈ succList spec parent)
    ∧ ∀ x ∈ g, ∀ y ∈ g, x ≠ y → ¬ Relation.TransGen (edgeRelP spec) x y := by
  have hmem := mem_groupsFold spec (sortStr (specNodes spec)) [] g hg
  rcases hmem with h | ⟨parent, hp, _, hgdef, hglen⟩
  · cases h
  constructor
  · refine ⟨parent, mem_sortStr.mp hp, hglen, ?_⟩
    intro x hx
    rw [hgdef] at hx
    rcases mem_admitFold spec _ [] x hx with h | h
    · cases h
    · exact h
  · intro x hx y hy hxy htrans
    have hpair : g.Pairwise (fun u v => has_path spec u v = false ∧ has_path spec v u = false) := by
      rw [hgdef]
      exact pairwise_admitFold spec _ [] List.Pairwise.nil
    have hsym : Symmetric (fun u v => has_path spec u v = false ∧ has_path spec v u = false) :=
      fun u v h => ⟨h.2, h.1⟩
    have hfalse := hpair.forall hsym hx hy hxy
    have hxs : x ∈ succList spec parent := by
      rw [hgdef] at hx
      rcases mem_admitFold spec _ [] x hx with h | h
      · cases h
      · exact h
    have hys : y ∈ succList spec parent := by
      rw [hgdef] at hy
      rcases mem_admitFold spec _ [] y hy with h | h
      · cases h
      · exact h
    have hxn : x ∈ specNodes spec := by
      obtain ⟨e, he, _, ht⟩ := mem_succList.mp hxs
      exact ht ▸ edge_target_mem_specNodes he
    have hyn : y ∈ specNodes spec := by
      obtain ⟨e, he, _, ht⟩ := mem_succList.mp hys
      exact ht ▸ edge_target_mem_specNodes he
    exact not_reaches_of_hasPath_false hxn hyn hfalse.1 htrans.to_reflTransGen

/-- C4 witness: in the diamond workflow the analysis reports the sibling group
`[X, Y]`, and the theorem yields that no path connects `X` and `Y`. -/
theorem C4_parallel_groups_witness :
    ["X", "Y"] ∈ find_parallel_groups sampleSpecDiamond
    ∧ ¬ Relation.TransGen (edgeRelP sampleSpecDiamond) "X" "Y" := by
  refine ⟨by decide, ?_⟩
  exact (C4_parallel_groups sampleSpecDiamond ["X", "Y"] (by decide)).2
    "X" (by decide) "Y" (by decide) (by decide)

/-! ## C2: dead-step elimination -/

theorem mem_revList {spec : WorkflowSpec} {n p : String} :
    p ∈ revList spec n ↔ ∃ e ∈ spec.edges, e.target = n ∧ e.source = p := by
  simp only [revList, mem_dictKeys, List.mem_map, List.mem_filter]
  constructor
  · rintro ⟨e, ⟨he, ht⟩, rfl⟩
    exact ⟨e, he, by simpa using ht, rfl⟩
  · rintro ⟨e, he, ht, rfl⟩
    exact ⟨e, ⟨he, by simpa using ht⟩, rfl⟩

theorem nodup_revList (spec : WorkflowSpec) (n : String) : (revList spec n).Nodup :=
  nodup_dictKeys _

theorem mem_allSources {spec : WorkflowSpec} {x : String} :
    x ∈ allSources spec ↔ ∃ e ∈ spec.edges, e.source = x := by
  simp [allSources, mem_dictKeys]

theorem dictKeys_length_le (l : List String) : (dictKeys l).length ≤ l.length :=
  (List.subperm_of_subset (nodup_dictKeys l) (fun _ h => mem_dictKeys.mp h)).length_le

theorem filter_reserve_length {l ps useful : List String}
    (hl : l.Nodup) (hps : ps.Nodup)
    (hsub : ∀ p ∈ ps, p ∈ l ∧ p ∉ useful) :
    (l.filter (fun s => s ∉ useful ++ ps)).length + ps.length
      ≤ (l.filter (fun s => s ∉ useful)).length := by
  have h1 : (l.filter (fun s => s ∉ useful ++ ps) ++ ps).Nodup := by
    refine List.Nodup.append (hl.filter _) hps ?_
    intro x hx hpx
    have := (List.mem_filter.mp hx).2
    simp only [decide_eq_true_eq, List.mem_append] at this
    exact this (Or.inr hpx)
  have h2 : (l.filter (fun s => s ∉ useful ++ ps) ++ ps) ⊆ l.filter (fun s => s ∉ useful) := by
    intro x hx
    rcases List.mem_append.mp hx with h | h
    · have hm := List.mem_filter.mp h
      refine List.mem_filter.mpr ⟨hm.1, ?_⟩
      have := hm.2
      simp only [decide_eq_true_eq, List.mem_append] at this
      simp only [decide_eq_true_eq]
      exact fun hu => this (Or.inl hu)
    · have := hsub x h
      exact List.mem_filter.mpr ⟨this.1, by simpa using this.2⟩
  simpa using (List.subperm_of_subset h1 h2).length_le

theorem bfsBack_props (spec : WorkflowSpec) (terminals : List String) :
    ∀ (fuel : Nat) (queue useful : List String),
      (∀ y ∈ useful, y ∉ queue → ∀ p ∈ revList spec y, p ∈ useful) →
      (∀ q ∈ queue, q ∈ useful) →
      useful.Nodup → queue.Nodup →
      (∀ x ∈ useful, ∃ t ∈ terminals, Reaches spec x t) →
      queue.length + ((allSources spec).filter (fun s => s ∉ useful)).length ≤ fuel →
      (∀ x ∈ useful, x ∈ bfsBack spec fuel queue useful)
      ∧ (∀ y ∈ bfsBack spec fuel queue useful, ∀ p ∈ revList spec y,
          p ∈ bfsBack spec fuel queue useful)
      ∧ (∀ x ∈ bfsBack spec fuel queue useful, ∃ t ∈ terminals, Reaches spec x t) := by
  intro fuel
  induction fuel with
  | zero =>
      intro queue useful hclosed hqu _ _ hreach hfuel
      have hq : queue = [] := by
        cases queue with
        | nil => rfl
        | cons q qs => simp at hfuel
      subst hq
      exact ⟨fun x hx => hx, fun y hy p hp => hclosed y hy (by simp) p hp, hreach⟩
  | succ fuel ih =>
      intro queue useful hclosed hqu hnu hnq hreach hfuel
      match queue with
      | [] =>
          exact ⟨fun x hx => hx, fun y hy p hp => hclosed y hy (by simp) p hp, hreach⟩
      | n :: rest =>
          have hstep : bfsBack spec (fuel + 1) (n :: rest) useful
              = bfsBack spec fuel
                  (rest ++ (revList spec n).filter (fun p => p ∉ useful))
                  (useful ++ (revList spec n).filter (fun p => p ∉ useful)) := rfl
          rw [hstep]
          have hnu2 : n ∈ useful := hqu n (List.mem_cons_self _ _)
          have hpsdis : ∀ p ∈ (revList spec n).filter (fun p => p ∉ useful), p ∉ useful := by
            intro p hp
            simpa using (List.mem_filter.mp hp).2
          have hclosed2 : ∀ y ∈ useful ++ (revList spec n).filter (fun p => p ∉ useful),
              y ∉ rest ++ (revList spec n).filter (fun p => p ∉ useful) →
              ∀ p ∈ revList spec y, p ∈ useful ++ (revList spec n).filter (fun p => p ∉ useful) := by
            intro y hy hyq p hp
            rcases List.mem_append.mp hy with hyu | hyps
            · by_cases hyn : y = n
              · subst hyn
                by_cases hpu : p ∈ useful
                · exact List.mem_append.mpr (Or.inl hpu)
                · exact List.mem_append.mpr (Or.inr (List.mem_filter.mpr ⟨hp, by simpa using hpu⟩))
              · have hyrest : y ∉ (n :: rest) := by
                  intro hmem
                  rcases List.mem_cons.mp hmem with h | h
                  · exact hyn h
                  · exact hyq (List.mem_append.mpr (Or.inl h))
                exact List.mem_append.mpr (Or.inl (hclosed y hyu hyrest p hp))
            · exact absurd (List.mem_append.mpr (Or.inr hyps)) hyq
          have hqu2 : ∀ q ∈ rest ++ (revList spec n).filter (fun p => p ∉ useful),
              q ∈ useful ++ (revList spec n).filter (fun p => p ∉ useful) := by
            intro q hq
            rcases List.mem_append.mp hq with h | h
            · exact List.mem_append.mpr (Or.inl (hqu q (List.mem_cons_of_mem _ h)))
            · exact List.mem_append.mpr (Or.inr h)
          have hnu'2 : (useful ++ (revList spec n).filter (fun p => p ∉ useful)).Nodup := by
            refine List.Nodup.append hnu ((nodup_revList spec n).filter _) ?_
            intro x hx hx2
            exact (hpsdis x hx2) hx
          have hnq2 : (rest ++ (revList spec n).filter (fun p => p ∉ useful)).Nodup := by
            refine List.Nodup.append ((List.nodup_cons.mp hnq).2) ((nodup_revList spec n).filter _) ?_
            intro x hx hx2
            exact (hpsdis x hx2) (hqu x (List.mem_cons_of_mem _ hx))
          have hreach2 : ∀ x ∈ useful ++ (revList spec n).filter (fun p => p ∉ useful),
              ∃ t ∈ terminals, Reaches spec x t := by
            intro x hx
            rcases List.mem_append.mp hx with h | h
            · exact hreach x h
            · have hxr := (List.mem_filter.mp h).1
              obtain ⟨e, he, ht, hs⟩ := mem_revList.mp hxr
              obtain ⟨t, htm, htr⟩ := hreach n hnu2
              refine ⟨t, htm, Relation.ReflTransGen.head ⟨e, he, hs, ht⟩ htr⟩
          have hfuel2 : (rest ++ (revList spec n).filter (fun p => p ∉ useful)).length
              + ((allSources spec).filter
                  (fun s => s ∉ useful ++ (revList spec n).filter (fun p => p ∉ useful))).length
              ≤ fuel := by
            have hallnd : (allSources spec).Nodup := nodup_dictKeys _
            have hres := filter_reserve_length hallnd
              ((nodup_revList spec n).filter _)
              (fun p hp => ⟨by
                  obtain ⟨e, he, _, hs⟩ := mem_revList.mp (List.mem_filter.mp hp).1
                  exact mem_allSources.mpr ⟨e, he, hs⟩,
                hpsdis p hp⟩)
            simp only [List.length_append, List.length_cons] at hfuel ⊢
            omega
          obtain ⟨m1, m2, m3⟩ := ih _ _ hclosed2 hqu2 hnu'2 hnq2 hreach2 hfuel2
          exact ⟨fun x hx => m1 x (List.mem_append.mpr (Or.inl hx)), m2, m3⟩

theorem mem_usefulSet_iff (spec : WorkflowSpec) (ts : List String) (hnd : ts.Nodup)
    (x : String) : x ∈ usefulSet spec ts ↔ ∃ t ∈ ts, Reaches spec x t := by
  have hfuel : ts.length + ((allSources spec).filter (fun s => s ∉ ts)).length
      ≤ ts.length + spec.edges.length := by
    have h1 : ((allSources spec).filter (fun s => s ∉ ts)).length ≤ (allSources spec).length :=
      List.length_filter_le _ _
    have h2 : (allSources spec).length ≤ spec.edges.length :=
      (dictKeys_length_le _).trans (by simp)
    omega
  obtain ⟨m1, m2, m3⟩ := bfsBack_props spec ts (ts.length + spec.edges.length) ts ts
    (fun y hy hyq _ _ => absurd hy hyq) (fun q hq => hq) hnd hnd
    (fun x hx => ⟨x, hx, Relation.ReflTransGen.refl⟩) hfuel
  constructor
  · exact m3 x
  · rintro ⟨t, htm, hr⟩
    have htU : t ∈ usefulSet spec ts := m1 t htm
    induction hr using Relation.ReflTransGen.head_induction_on with
    | refl => exact htU
    | head e hrest ih =>
        obtain ⟨ed, hed, hs, ht2⟩ := e
        exact m2 _ ih _ (mem_revList.mpr ⟨ed, hed, ht2, hs⟩)

theorem select_terminal_nodup {spec : WorkflowSpec} {ts : List String}
    (h : select_terminal_steps spec = some ts) : ts.Nodup := by
  simp only [select_terminal_steps] at h
  split_ifs at h
  · cases h
    exact nodup_sortStr (List.nodup_dedup _)
  · cases h
    exact nodup_sortStr ((nodup_dictKeys _).filter _)

/-- C2: with at least one step and at least one terminal step, dead-step
elimination keeps exactly the steps from which some terminal step is
reachable, keeps exactly the edges whose two endpoints both survive, and
removes exactly the outputs whose `source_step` no longer survives; with no
steps or no terminal steps it returns the spec unchanged. -/
theorem C2_dead_step_elimination (spec : WorkflowSpec) :
    (∀ ts, select_terminal_steps spec = some ts → ts ≠ [] → spec.steps ≠ [] →
      (∀ o ∈ spec.outputs, o.source_step ≠ some "") →
      ∃ res, deadStepElimination_apply spec = some res ∧
        (∀ s, s ∈ res.steps ↔ s ∈ spec.steps ∧ ∃ t ∈ ts, Reaches spec s.id t) ∧
        (∀ e, e ∈ res.edges ↔ e ∈ spec.edges ∧ (∃ t ∈ ts, Reaches spec e.source t)
            ∧ (∃ t ∈ ts, Reaches spec e.target t)) ∧
        (∀ o, o ∈ res.outputs ↔ o ∈ spec.outputs ∧ (o.source_step = none ∨
            ∃ s2, o.source_step = some s2 ∧ ∃ t ∈ ts, Reaches spec s2 t)))
    ∧ (spec.steps = [] → deadStepElimination_apply spec = some spec)
    ∧ (select_terminal_steps spec = some [] → deadStepElimination_apply spec = some spec) := by
  refine ⟨?_, ?_, ?_⟩
  · intro ts hsel hne hsteps houts
    have hiff := mem_usefulSet_iff spec ts (select_terminal_nodup hsel)
    have happ : deadStepElimination_apply spec = some { spec with
        steps := spec.steps.filter (fun s => s.id ∈ usefulSet spec ts),
        edges := spec.edges.filter (fun e =>
          e.source ∈ usefulSet spec ts ∧ e.target ∈ usefulSet spec ts),
        outputs := spec.outputs.filter (fun o =>
          strTruthy o.source_step = false ∨ o.source_step.getD "" ∈ usefulSet spec ts) } := by
      simp only [deadStepElimination_apply, if_neg hsteps, hsel, if_neg hne]
    refine ⟨_, happ, ?_, ?_, ?_⟩
    · intro s
      show s ∈ spec.steps.filter (fun s => s.id ∈ usefulSet spec ts) ↔ _
      simp only [List.mem_filter, decide_eq_true_eq]
      rw [hiff s.id]
    · intro e
      show e ∈ spec.edges.filter (fun e =>
          e.source ∈ usefulSet spec ts ∧ e.target ∈ usefulSet spec ts) ↔ _
      simp only [List.mem_filter, decide_eq_true_eq]
      rw [hiff e.source, hiff e.target]
    · intro o
      show o ∈ spec.outputs.filter (fun o =>
          strTruthy o.source_step = false ∨ o.source_step.getD "" ∈ usefulSet spec ts) ↔ _
      simp only [List.mem_filter, decide_eq_true_eq]
      constructor
      · rintro ⟨hom, hcond⟩
        refine ⟨hom, ?_⟩
        cases hss : o.source_step with
        | none => exact Or.inl rfl
        | some s2 =>
            have hs2 : s2 ≠ "" := by
              intro hc
              exact houts o hom (by rw [hss, hc])
            have hnotempty : s2.isEmpty = false := by
              rw [Bool.eq_false_iff]
              intro he
              exact hs2 ((String.isEmpty_iff s2).mp he)
            rcases hcond with h | h
            · rw [hss] at h
              simp [strTruthy, hnotempty] at h
            · rw [hss] at h
              simp only [Option.getD_some] at h
              exact Or.inr ⟨s2, rfl, (hiff s2).mp h⟩
      · rintro ⟨hom, hcond⟩
        refine ⟨hom, ?_⟩
        rcases hcond with h | ⟨s2, hss, hreach⟩
        · exact Or.inl (by rw [h]; rfl)
        · exact Or.inr (by rw [hss]; simpa using (hiff s2).mpr hreach)
  · intro h
    simp [deadStepElimination_apply, h]
  · intro h
    by_cases hsteps : spec.steps = []
    · simp [deadStepElimination_apply, hsteps]
    · simp [deadStepElimination_apply, hsteps, h]

/-- C2 witness: the theorem applied to `sampleSpecDead`, whose terminal set is
`[B]`. -/
theorem C2_dead_step_elimination_witness :
    ∃ res, deadStepElimination_apply sampleSpecDead = some res ∧
      (∀ s, s ∈ res.steps ↔ s ∈ sampleSpecDead.steps
          ∧ ∃ t ∈ ["B"], Reaches sampleSpecDead s.id t) ∧
      (∀ e, e ∈ res.edges ↔ e ∈ sampleSpecDead.edges
          ∧ (∃ t ∈ ["B"], Reaches sampleSpecDead e.source t)
          ∧ (∃ t ∈ ["B"], Reaches sampleSpecDead e.target t)) ∧
      (∀ o, o ∈ res.outputs ↔ o ∈ sampleSpecDead.outputs ∧ (o.source_step = none ∨
          ∃ s2, o.source_step = some s2 ∧ ∃ t ∈ ["B"], Reaches sampleSpecDead s2 t)) :=
  (C2_dead_step_elimination sampleSpecDead).1 ["B"] (by rfl) (by decide) (by decide)
    (by decide)

/-! ## C1: topological order

Counting and index helpers, then the loop invariant of Kahn's algorithm. -/

theorem indexOf_append_left {l : List String} (l' : List String) {a : String} (h : a ∈ l) :
    (l ++ l').indexOf a = l.indexOf a := by
  induction l with
  | nil => cases h
  | cons b bs ih =>
      rcases List.mem_cons.mp h with rfl | h2
      · simp [List.indexOf_cons]
      · by_cases hb : b = a
        · subst hb
          simp [List.indexOf_cons]
        · have hbeq : (b == a) = false := by simp [hb]
          simp [List.indexOf_cons, hbeq, ih h2]

theorem indexOf_append_self (l : List String) {a : String} (h : a ∉ l) :
    (l ++ [a]).indexOf a = l.length := by
  induction l with
  | nil => simp [List.indexOf_cons]
  | cons b bs ih =>
      have hb : (b == a) = false := by
        simp only [beq_eq_false_iff_ne, ne_eq]
        intro hba
        exact h (hba ▸ List.mem_cons_self b bs)
      simp only [List.cons_append, List.indexOf_cons, hb, cond_false, List.length_cons]
      rw [ih (fun hx => h (List.mem_cons_of_mem b hx))]

theorem countP_le_of_subset {l1 l2 : List String} (P : String → Bool)
    (hnd1 : l1.Nodup) (hsub : l1 ⊆ l2) : l1.countP P ≤ l2.countP P := by
  rw [List.countP_eq_length_filter, List.countP_eq_length_filter]
  refine (List.subperm_of_subset (hnd1.filter P) ?_).length_le
  intro x hx
  have hm := List.mem_filter.mp hx
  exact List.mem_filter.mpr ⟨hsub hm.1, hm.2⟩

theorem countP_eq_of_subset_all {l1 l2 : List String} (P : String → Bool)
    (hnd1 : l1.Nodup) (hnd2 : l2.Nodup) (hsub : l1 ⊆ l2)
    (hall : ∀ u ∈ l2, P u = true → u ∈ l1) : l1.countP P = l2.countP P := by
  refine le_antisymm (countP_le_of_subset P hnd1 hsub) ?_
  rw [List.countP_eq_length_filter, List.countP_eq_length_filter]
  refine (List.subperm_of_subset (hnd2.filter P) ?_).length_le
  intro x hx
  have hm := List.mem_filter.mp hx
  exact List.mem_filter.mpr ⟨hall x hm.1 hm.2, hm.2⟩

theorem mem_of_countP_eq {l1 l2 : List String} {P : String → Bool}
    (hnd1 : l1.Nodup) (hsub : l1 ⊆ l2)
    (heq : l1.countP P = l2.countP P) :
    ∀ u ∈ l2, P u = true → u ∈ l1 := by
  intro u hu hPu
  have hsubf : l1.filter P ⊆ l2.filter P := by
    intro x hx
    have hm := List.mem_filter.mp hx
    exact List.mem_filter.mpr ⟨hsub hm.1, hm.2⟩
  have hperm : (l1.filter P).Perm (l2.filter P) := by
    refine (List.subperm_of_subset (hnd1.filter P) hsubf).perm_of_length_le ?_
    rw [← List.countP_eq_length_filter, ← List.countP_eq_length_filter]
    exact heq.ge
  have : u ∈ l1.filter P := hperm.mem_iff.mpr (List.mem_filter.mpr ⟨hu, hPu⟩)
  exact (List.mem_filter.mp this).1

theorem countP_lt_exists {l1 l2 : List String} (P : String → Bool)
    (hnd1 : l1.Nodup) (hnd2 : l2.Nodup) (hsub : l1 ⊆ l2)
    (hlt : l1.countP P < l2.countP P) :
    ∃ u ∈ l2, P u = true ∧ u ∉ l1 := by
  by_contra hcon
  push_neg at hcon
  exact absurd (countP_eq_of_subset_all P hnd1 hnd2 hsub
    (fun u hu hPu => hcon u hu hPu)) hlt.ne

theorem relax_spec (ts : List String) :
    ∀ (indeg : String → Int) (queue : List String), ts.Nodup →
      (relax indeg queue ts).1 = (fun x => if x ∈ ts then indeg x - 1 else indeg x)
      ∧ (relax indeg queue ts).2 = queue ++ ts.filter (fun t => indeg t = 1) := by
  induction ts with
  | nil =>
      intro indeg queue _
      exact ⟨by funext x; simp [relax], by simp [relax]⟩
  | cons t ts ih =>
      intro indeg queue hnd
      obtain ⟨hts, hnd2⟩ := List.nodup_cons.mp hnd
      obtain ⟨ih1, ih2⟩ := ih (fun x => if x = t then indeg t - 1 else indeg x)
        (if indeg t - 1 = 0 then queue ++ [t] else queue) hnd2
      constructor
      · rw [relax, ih1]
        funext x
        by_cases hx : x ∈ ts
        · have hxt : x ≠ t := fun h => hts (h ▸ hx)
          simp [hx, hxt, List.mem_cons]
        · by_cases hxt : x = t
          · subst hxt
            simp [hx, hts]
          · simp [hx, hxt, List.mem_cons]
      · rw [relax, ih2]
        have hfilter : ts.filter (fun x => (if x = t then indeg t - 1 else indeg x) = 1)
            = ts.filter (fun x => indeg x = 1) := by
          refine List.filter_congr ?_
          intro x hx
          have hxt : x ≠ t := fun h => hts (h ▸ hx)
          simp [hxt]
        rw [hfilter]
        by_cases hz : indeg t - 1 = 0
        · have ht1 : indeg t = 1 := by omega
          rw [if_pos hz]
          simp only [List.filter_cons, ht1]
          norm_num
        · have ht1 : ¬ (indeg t = 1) := by omega
          rw [if_neg hz]
          simp only [List.filter_cons]
          simp [ht1]

theorem kahnLoop_props (spec : WorkflowSpec) :
    ∀ (fuel : Nat) (queue order : List String) (indeg : String → Int),
      (order ++ queue).Nodup →
      (∀ x ∈ order ++ queue, x ∈ specNodes spec) →
      (∀ t, indeg t = initIndeg spec t
          - (order.countP (fun u => t ∈ succList spec u) : Int)) →
      (∀ x ∈ specNodes spec, indeg x = 0 → x ∈ order ++ queue) →
      (∀ v ∈ queue, ∀ u, v ∈ succList spec u → u ∈ order) →
      (∀ u v, v ∈ succList spec u → v ∈ order →
          u ∈ order ∧ order.indexOf u < order.indexOf v) →
      (specNodes spec).length ≤ fuel + order.length →
      (kahnLoop spec fuel queue indeg order).Nodup
      ∧ (∀ x ∈ kahnLoop spec fuel queue indeg order, x ∈ specNodes spec)
      ∧ (∀ u v, v ∈ succList spec u → v ∈ kahnLoop spec fuel queue indeg order →
          u ∈ kahnLoop spec fuel queue indeg order
          ∧ (kahnLoop spec fuel queue indeg order).indexOf u
              < (kahnLoop spec fuel queue indeg order).indexOf v)
      ∧ ((kahnLoop spec fuel queue indeg order).length < (specNodes spec).length →
          ∀ y ∈ specNodes spec, y ∉ kahnLoop spec fuel queue indeg order →
            ∃ u, u ∈ specNodes spec ∧ u ∉ kahnLoop spec fuel queue indeg order
              ∧ y ∈ succList spec u) := by
  intro fuel
  induction fuel with
  | zero =>
      intro queue order indeg hnd hsub _ _ _ hprec hfuel
      have hres : kahnLoop spec 0 queue indeg order = order := rfl
      rw [hres]
      have hond : order.Nodup := (List.nodup_append.mp hnd).1
      refine ⟨hond, fun x hx => hsub x (List.mem_append.mpr (Or.inl hx)), hprec, ?_⟩
      intro hlen
      omega
  | succ fuel ih =>
      intro queue order indeg hnd hsub hcnt hzero hqin hprec hfuel
      match queue with
      | [] =>
          have hres : kahnLoop spec (fuel + 1) [] indeg order = order := rfl
          rw [hres]
          have hond : order.Nodup := by simpa using hnd
          have hosub : ∀ x ∈ order, x ∈ specNodes spec := by
            intro x hx
            exact hsub x (by simpa using hx)
          refine ⟨hond, hosub, hprec, ?_⟩
          intro hlen y hy hyres
          have hy0 : indeg y ≠ 0 := by
            intro h0
            exact hyres (by simpa using hzero y hy h0)
          have hle : order.countP (fun u => y ∈ succList spec u)
              ≤ (specNodes spec).countP (fun u => y ∈ succList spec u) :=
            countP_le_of_subset _ hond hosub
          have hinit : initIndeg spec y
              = ((specNodes spec).countP (fun u => y ∈ succList spec u) : Int) := rfl
          have hlt : order.countP (fun u => y ∈ succList spec u)
              < (specNodes spec).countP (fun u => y ∈ succList spec u) := by
            have := hcnt y
            rw [hinit] at this
            omega
          obtain ⟨u, hu, hPu, hunot⟩ :=
            countP_lt_exists _ hond (nodup_specNodes spec) hosub hlt
          exact ⟨u, hu, hunot, of_decide_eq_true hPu⟩
      | n :: rest =>
          obtain ⟨hrel1, hrel2⟩ := relax_spec (succList spec n) indeg rest (nodup_succList spec n)
          have hstep : kahnLoop spec (fuel + 1) (n :: rest) indeg order
              = kahnLoop spec fuel (relax indeg rest (succList spec n)).2
                  (relax indeg rest (succList spec n)).1 (order ++ [n]) := rfl
          rw [hstep, hrel1, hrel2]
          have hond : order.Nodup := (List.nodup_append.mp hnd).1
          have hqnd : (n :: rest).Nodup := (List.nodup_append.mp hnd).2.1
          have hdisj : ∀ x ∈ order, x ∉ (n :: rest) := by
            intro x hx hx2
            exact (List.nodup_append.mp hnd).2.2 hx hx2
          have hnor : n ∉ order := fun h => hdisj n h (List.mem_cons_self _ _)
          have hnrest : n ∉ rest := (List.nodup_cons.mp hqnd).1
          have hzeroAll : ∀ x ∈ order ++ (n :: rest), indeg x = 0 := by
            intro x hx
            have hinnbrs : ∀ u, x ∈ succList spec u → u ∈ order := by
              rcases List.mem_append.mp hx with hxo | hxq
              · exact fun u hu => (hprec u x hu hxo).1
              · exact fun u hu => hqin x hxq u hu
            have hosub : ∀ z ∈ order, z ∈ specNodes spec := by
              intro z hz
              exact hsub z (List.mem_append.mpr (Or.inl hz))
            have hceq : order.countP (fun u => x ∈ succList spec u)
                = (specNodes spec).countP (fun u => x ∈ succList spec u) :=
              countP_eq_of_subset_all _ hond (nodup_specNodes spec) hosub
                (fun u _ hPu => hinnbrs u (of_decide_eq_true hPu))
            have hinit : initIndeg spec x
                = ((specNodes spec).countP (fun u => x ∈ succList spec u) : Int) := rfl
            have := hcnt x
            rw [hinit] at this
            omega
          have hnewly : ∀ t ∈ (succList spec n).filter (fun t => indeg t = 1),
              t ∈ succList spec n ∧ indeg t = 1 := by
            intro t ht
            have hm := List.mem_filter.mp ht
            exact ⟨hm.1, by simpa using hm.2⟩
          have hnewnotold : ∀ t ∈ (succList spec n).filter (fun t => indeg t = 1),
              t ∉ order ++ (n :: rest) := by
            intro t ht hmem
            have := hzeroAll t hmem
            have := (hnewly t ht).2
            omega
          have harr : (order ++ [n]) ++ rest = order ++ (n :: rest) := by simp
          have hnd1 : ((order ++ [n]) ++ (rest ++ (succList spec n).filter (fun t => indeg t = 1))).Nodup := by
            rw [← List.append_assoc, harr]
            refine List.nodup_append.mpr ⟨hnd, ((nodup_succList spec n).filter _), ?_⟩
            intro x hx hx2
            exact hnewnotold x hx2 hx
          have hsub1 : ∀ x ∈ (order ++ [n]) ++ (rest ++ (succList spec n).filter (fun t => indeg t = 1)),
              x ∈ specNodes spec := by
            intro x hx
            rw [← List.append_assoc, harr] at hx
            rcases List.mem_append.mp hx with hx | hx
            · exact hsub x hx
            · obtain ⟨e, he, _, ht⟩ := mem_succList.mp (hnewly x hx).1
              exact ht ▸ edge_target_mem_specNodes he
          have hcnt1 : ∀ t, (if t ∈ succList spec n then indeg t - 1 else indeg t)
              = initIndeg spec t
                - ((order ++ [n]).countP (fun u => t ∈ succList spec u) : Int) := by
            intro t
            rw [List.countP_append]
            have hsingle : ([n] : List String).countP (fun u => t ∈ succList spec u)
                = if t ∈ succList spec n then 1 else 0 := by
              by_cases ht : t ∈ succList spec n
              · simp [List.countP_cons, ht]
              · simp [List.countP_cons, ht]
            rw [hsingle]
            have := hcnt t
            by_cases ht : t ∈ succList spec n
            · rw [if_pos ht, if_pos ht]
              push_cast
              omega
            · rw [if_neg ht, if_neg ht]
              push_cast
              omega
          have hzero1 : ∀ x ∈ specNodes spec,
              (if x ∈ succList spec n then indeg x - 1 else indeg x) = 0 →
              x ∈ (order ++ [n]) ++ (rest ++ (succList spec n).filter (fun t => indeg t = 1)) := by
            intro x hx h0
            by_cases hxs : x ∈ succList spec n
            · rw [if_pos hxs] at h0
              have : indeg x = 1 := by omega
              refine List.mem_append.mpr (Or.inr (List.mem_append.mpr (Or.inr ?_)))
              exact List.mem_filter.mpr ⟨hxs, by simpa using this⟩
            · rw [if_neg hxs] at h0
              have := hzero x hx h0
              rw [← harr] at this
              rcases List.mem_append.mp this with h | h
              · exact List.mem_append.mpr (Or.inl h)
              · exact List.mem_append.mpr (Or.inr (List.mem_append.mpr (Or.inl h)))
          have hqin1 : ∀ v ∈ rest ++ (succList spec n).filter (fun t => indeg t = 1),
              ∀ u, v ∈ succList spec u → u ∈ order ++ [n] := by
            intro v hv u hu
            rcases List.mem_append.mp hv with hvr | hvn
            · exact List.mem_append.mpr (Or.inl (hqin v (List.mem_cons_of_mem _ hvr) u hu))
            · obtain ⟨hvs, hv1⟩ := hnewly v hvn
              have hv0 : (if v ∈ succList spec n then indeg v - 1 else indeg v) = 0 := by
                rw [if_pos hvs]
                omega
              have hceq : (order ++ [n]).countP (fun w => v ∈ succList spec w)
                  = (specNodes spec).countP (fun w => v ∈ succList spec w) := by
                have h1 := hcnt1 v
                rw [hv0] at h1
                have hinit : initIndeg spec v
                    = ((specNodes spec).countP (fun w => v ∈ succList spec w) : Int) := rfl
                rw [hinit] at h1
                omega
              have hnd2 : (order ++ [n]).Nodup := by
                rw [← harr] at hnd
                exact (List.nodup_append.mp hnd).1
              have hsub2 : (order ++ [n]) ⊆ specNodes spec := by
                intro z hz
                rw [← harr] at hsub
                exact hsub z (List.mem_append.mpr (Or.inl hz))
              have humem : u ∈ specNodes spec := by
                obtain ⟨e, he, hs, _⟩ := mem_succList.mp hu
                exact hs ▸ edge_source_mem_specNodes he
              exact mem_of_countP_eq hnd2 hsub2 hceq u humem (decide_eq_true hu)
          have hprec1 : ∀ u v, v ∈ succList spec u → v ∈ order ++ [n] →
              u ∈ order ++ [n]
              ∧ (order ++ [n]).indexOf u < (order ++ [n]).indexOf v := by
            intro u v hu hv
            rcases List.mem_append.mp hv with hvo | hvn
            · obtain ⟨huo, hidx⟩ := hprec u v hu hvo
              refine ⟨List.mem_append.mpr (Or.inl huo), ?_⟩
              rw [indexOf_append_left [n] huo, indexOf_append_left [n] hvo]
              exact hidx
            · have hveq : v = n := List.mem_singleton.mp hvn
              subst hveq
              have huo : u ∈ order := hqin v (List.mem_cons_self _ _) u hu
              refine ⟨List.mem_append.mpr (Or.inl huo), ?_⟩
              rw [indexOf_append_left [v] huo, indexOf_append_self order hnor]
              exact List.indexOf_lt_length.mpr huo
          have hfuel1 : (specNodes spec).length ≤ fuel + (order ++ [n]).length := by
            simp only [List.length_append, List.length_singleton]
            omega
          exact ih (rest ++ (succList spec n).filter (fun t => indeg t = 1)) (order ++ [n])
            (fun x => if x ∈ succList spec n then indeg x - 1 else indeg x)
            hnd1 hsub1 hcnt1 hzero1 hqin1 hprec1 hfuel1

theorem kahnRun_props (spec : WorkflowSpec) :
    (kahnRun spec).Nodup
    ∧ (∀ x ∈ kahnRun spec, x ∈ specNodes spec)
    ∧ (∀ u v, v ∈ succList spec u → v ∈ kahnRun spec →
        u ∈ kahnRun spec ∧ (kahnRun spec).indexOf u < (kahnRun spec).indexOf v)
    ∧ ((kahnRun spec).length < (specNodes spec).length →
        ∀ y ∈ specNodes spec, y ∉ kahnRun spec →
          ∃ u, u ∈ specNodes spec ∧ u ∉ kahnRun spec ∧ y ∈ succList spec u) := by
  have hqnd : (sortStr ((specNodes spec).filter (fun n => initIndeg spec n = 0))).Nodup :=
    nodup_sortStr ((nodup_specNodes spec).filter _)
  have hinv1 : (([] : List String)
      ++ sortStr ((specNodes spec).filter (fun n => initIndeg spec n = 0))).Nodup := by
    simpa using hqnd
  have hinv2 : ∀ x ∈ ([] : List String)
      ++ sortStr ((specNodes spec).filter (fun n => initIndeg spec n = 0)),
      x ∈ specNodes spec := by
    intro x hx
    simp only [List.nil_append] at hx
    exact (List.mem_filter.mp (mem_sortStr.mp hx)).1
  have hinv3 : ∀ t, initIndeg spec t = initIndeg spec t
      - ((([] : List String).countP (fun u => t ∈ succList spec u) : Nat) : Int) := by
    intro t
    simp [List.countP_nil]
  have hinv4 : ∀ x ∈ specNodes spec, initIndeg spec x = 0 →
      x ∈ ([] : List String)
        ++ sortStr ((specNodes spec).filter (fun n => initIndeg spec n = 0)) := by
    intro x hx h0
    simp only [List.nil_append]
    exact mem_sortStr.mpr (List.mem_filter.mpr ⟨hx, decide_eq_true h0⟩)
  have hinv5 : ∀ v ∈ sortStr ((specNodes spec).filter (fun n => initIndeg spec n = 0)),
      ∀ u, v ∈ succList spec u → u ∈ ([] : List String) := by
    intro v hv u hu
    have hv0 : initIndeg spec v = 0 := by
      have := (List.mem_filter.mp (mem_sortStr.mp hv)).2
      simpa using this
    have hcz : (specNodes spec).countP (fun u => v ∈ succList spec u) = 0 := by
      have : ((((specNodes spec).countP (fun u => v ∈ succList spec u)) : Nat) : Int) = 0 := hv0
      exact_mod_cast this
    have hall := List.countP_eq_zero.mp hcz
    have humem : u ∈ specNodes spec := by
      obtain ⟨e, he, hs, _⟩ := mem_succList.mp hu
      exact hs ▸ edge_source_mem_specNodes he
    exact absurd (decide_eq_true hu) (hall u humem)
  have hinv6 : ∀ u v, v ∈ succList spec u → v ∈ ([] : List String) →
      u ∈ ([] : List String)
      ∧ (([] : List String)).indexOf u < (([] : List String)).indexOf v := by
    intro u v _ hv
    cases hv
  have hinv7 : (specNodes spec).length ≤ (specNodes spec).length
      + ([] : List String).length := by
    simp
  exact kahnLoop_props spec (specNodes spec).length
    (sortStr ((specNodes spec).filter (fun n => initIndeg spec n = 0))) [] (initIndeg spec)
    hinv1 hinv2 hinv3 hinv4 hinv5 hinv6 hinv7

/-- C1: under the data-model invariants (edge endpoints are step ids, step ids
unique), `topological_order` returns, when it succeeds, a permutation of the
step ids in which every edge's source precedes its target (determinism and the
lexicographic tie-break are fixed by the definition, which sorts the ready
queue); and it raises the cycle error exactly when the graph has a directed
cycle. -/
theorem C1_topological_order (spec : WorkflowSpec)
    (hwf : ∀ e ∈ spec.edges, e.source ∈ step_ids spec ∧ e.target ∈ step_ids spec)
    (hnd : (step_ids spec).Nodup) :
    (∀ l, topological_order spec = .ok l →
        l.Perm (step_ids spec)
        ∧ ∀ e ∈ spec.edges, l.indexOf e.source < l.indexOf e.target)
    ∧ ((∃ msg, topological_order spec = .error msg) ↔ SpecHasCycle spec) := by
  obtain ⟨hrnd, hrsub, hrprec, hrleft⟩ := kahnRun_props spec
  have hmemiff : ∀ x, x ∈ specNodes spec ↔ x ∈ step_ids spec := by
    intro x
    rw [mem_specNodes]
    constructor
    · rintro (h | ⟨e, he, h | h⟩)
      · exact h
      · exact h ▸ (hwf e he).1
      · exact h ▸ (hwf e he).2
    · exact Or.inl
  have hnodesperm : (specNodes spec).Perm (step_ids spec) :=
    (List.perm_ext_iff_of_nodup (nodup_specNodes spec) hnd).mpr hmemiff
  have hrunperm : (kahnRun spec).length = (specNodes spec).length →
      (kahnRun spec).Perm (specNodes spec) := by
    intro hl
    exact (List.subperm_of_subset hrnd hrsub).perm_of_length_le hl.ge
  constructor
  · intro l hok
    rw [topological_order] at hok
    by_cases hl : (kahnRun spec).length = (specNodes spec).length
    · rw [if_pos hl] at hok
      have hleq : l = kahnRun spec := ((Except.ok.injEq _ _).mp hok).symm
      subst hleq
      have hperm : (kahnRun spec).Perm (specNodes spec) := hrunperm hl
      refine ⟨hperm.trans hnodesperm, ?_⟩
      intro e he
      have hsucc : e.target ∈ succList spec e.source :=
        mem_succList.mpr ⟨e, he, rfl, rfl⟩
      have htmem : e.target ∈ kahnRun spec :=
        hperm.mem_iff.mpr (edge_target_mem_specNodes he)
      exact (hrprec e.source e.target hsucc htmem).2
    · rw [if_neg hl] at hok
      cases hok
  · constructor
    · rintro ⟨msg, herr⟩
      rw [topological_order] at herr
      by_cases hl : (kahnRun spec).length = (specNodes spec).length
      · rw [if_pos hl] at herr
        cases herr
      · have hlt : (kahnRun spec).length < (specNodes spec).length :=
          lt_of_le_of_ne (List.subperm_of_subset hrnd hrsub).length_le hl
        have hy0 : ∃ y, y ∈ specNodes spec ∧ y ∉ kahnRun spec := by
          by_contra hcon
          push_neg at hcon
          have : (specNodes spec).Subperm (kahnRun spec) :=
            List.subperm_of_subset (nodup_specNodes spec) (fun y hy => hcon y hy)
          exact absurd this.length_le (by omega)
        obtain ⟨y0, hy0n, hy0r⟩ := hy0
        have hleft := hrleft hlt
        have hch : ∀ y, ∃ u, (y ∈ specNodes spec ∧ y ∉ kahnRun spec) →
            ((u ∈ specNodes spec ∧ u ∉ kahnRun spec) ∧ y ∈ succList spec u) := by
          intro y
          by_cases hy : y ∈ specNodes spec ∧ y ∉ kahnRun spec
          · obtain ⟨u, hu1, hu2, hu3⟩ := hleft y hy.1 hy.2
            exact ⟨u, fun _ => ⟨⟨hu1, hu2⟩, hu3⟩⟩
          · exact ⟨y, fun hy2 => absurd hy2 hy⟩
        choose g hg using hch
        have hiter : ∀ k, g^[k] y0 ∈ specNodes spec ∧ g^[k] y0 ∉ kahnRun spec := by
          intro k
          induction k with
          | zero => exact ⟨hy0n, hy0r⟩
          | succ k ih =>
              rw [Function.iterate_succ_apply']
              exact (hg (g^[k] y0) ih).1
        have hedge : ∀ k, edgeRelP spec (g^[k + 1] y0) (g^[k] y0) := by
          intro k
          rw [Function.iterate_succ_apply']
          exact edgeRelP_iff_mem_succList.mpr (hg (g^[k] y0) (hiter k)).2
        have hchain : ∀ (m k : Nat),
            Relation.TransGen (edgeRelP spec) (g^[k + (m + 1)] y0) (g^[k] y0) := by
          intro m
          induction m with
          | zero => exact fun k => Relation.TransGen.single (hedge k)
          | succ m ih =>
              intro k
              have h1 := ih (k + 1)
              have heq : k + 1 + (m + 1) = k + (m + 1 + 1) := by omega
              rw [heq] at h1
              exact h1.tail (hedge k)
        have hRnd : ((specNodes spec).filter (fun y => y ∉ kahnRun spec)).Nodup :=
          (nodup_specNodes spec).filter _
        have hmap : ∀ k ∈ Finset.range
            (((specNodes spec).filter (fun y => y ∉ kahnRun spec)).length + 1),
            g^[k] y0 ∈ ((specNodes spec).filter (fun y => y ∉ kahnRun spec)).toFinset := by
          intro k _
          rw [List.mem_toFinset]
          exact List.mem_filter.mpr ⟨(hiter k).1, by simpa using (hiter k).2⟩
        have hcard : (((specNodes spec).filter (fun y => y ∉ kahnRun spec)).toFinset).card
            < (Finset.range
                (((specNodes spec).filter (fun y => y ∉ kahnRun spec)).length + 1)).card := by
          rw [List.toFinset_card_of_nodup hRnd, Finset.card_range]
          omega
        obtain ⟨i, _, j, _, hij, hfij⟩ :=
          Finset.exists_ne_map_eq_of_card_lt_of_maps_to hcard hmap
        have hcycle : ∀ (a b : Nat), a < b → g^[a] y0 = g^[b] y0 → SpecHasCycle spec := by
          intro a b hab heq
          have h1 := hchain (b - a - 1) a
          have heq2 : a + (b - a - 1 + 1) = b := by omega
          rw [heq2] at h1
          rw [← heq] at h1
          exact ⟨g^[a] y0, h1⟩
        rcases Nat.lt_or_ge i j with h | h
        · exact hcycle i j h hfij
        · exact hcycle j i (lt_of_le_of_ne h (Ne.symm hij)) hfij.symm
    · intro hcyc
      obtain ⟨n, htg⟩ := hcyc
      rw [topological_order]
      by_cases hl : (kahnRun spec).length = (specNodes spec).length
      · exfalso
        have hperm := hrunperm hl
        have hmono : ∀ a b, Relation.TransGen (edgeRelP spec) a b →
            (kahnRun spec).indexOf a < (kahnRun spec).indexOf b := by
          intro a b h
          induction h with
          | single e =>
              have hmem : _ ∈ kahnRun spec :=
                hperm.mem_iff.mpr (edgeRelP_target_mem e)
              exact (hrprec _ _ (edgeRelP_iff_mem_succList.mp e) hmem).2
          | tail htg2 e ih =>
              have hmem : _ ∈ kahnRun spec :=
                hperm.mem_iff.mpr (edgeRelP_target_mem e)
              exact ih.trans (hrprec _ _ (edgeRelP_iff_mem_succList.mp e) hmem).2
        exact lt_irrefl _ (hmono n n htg)
      · refine ⟨"Workflow graph contains a cycle and cannot be sorted.", ?_⟩
        rw [if_neg hl]

/-- C1 witness: the theorem applied to the valid acyclic `sampleSpecA`, whose
computed order is `[A, B, C]`. -/
theorem C1_topological_order_witness :
    (["A", "B", "C"].Perm (step_ids sampleSpecA)
      ∧ ∀ e ∈ sampleSpecA.edges,
          ["A", "B", "C"].indexOf e.source < ["A", "B", "C"].indexOf e.target)
    ∧ ((∃ msg, topological_order sampleSpecA = .error msg) ↔ SpecHasCycle sampleSpecA) :=
  ⟨(C1_topological_order sampleSpecA (by decide) (by decide)).1 ["A", "B", "C"] (by rfl),
   (C1_topological_order sampleSpecA (by decide) (by decide)).2⟩

/-! ## C3: step fusion

Characterization of the pass's initial state and of one fusion. -/

theorem list_eq_singleton {α : Type} {l : List α} (h : l.length = 1) {x : α}
    (hx : x ∈ l) : l = [x] := by
  match l, h with
  | [a], _ =>
      rcases List.mem_singleton.mp hx with rfl
      rfl

theorem stepById_fold_notmem :
    ∀ (l : List StepSpec) (f0 : String → Option StepSpec) (i : String),
      (∀ s ∈ l, s.id ≠ i) →
      (l.foldl (fun f s => fun x => if x = s.id then some s else f x) f0) i = f0 i := by
  intro l
  induction l with
  | nil => intro f0 i _; rfl
  | cons s ss ih =>
      intro f0 i hne
      simp only [List.foldl_cons]
      rw [ih _ i (fun u hu => hne u (List.mem_cons_of_mem _ hu))]
      have : i ≠ s.id := fun h => hne s (List.mem_cons_self _ _) h.symm
      simp [this]

theorem stepById_init {spec : WorkflowSpec} (hnd : (step_ids spec).Nodup)
    {s : StepSpec} (hs : s ∈ spec.steps) :
    (initMergeState spec).stepById s.id = some s := by
  obtain ⟨pre, post, hsplit⟩ := List.append_of_mem hs
  have hpost : ∀ u ∈ post, u.id ≠ s.id := by
    intro u hu heq
    simp only [step_ids] at hnd
    rw [hsplit] at hnd
    simp only [List.map_append, List.map_cons] at hnd
    have h2 := (List.nodup_append.mp hnd).2.1
    have h3 := (List.nodup_cons.mp h2).1
    exact h3 (heq ▸ List.mem_map_of_mem (fun t => t.id) hu)
  show (spec.steps.foldl (fun f t => fun x => if x = t.id then some t else f x)
    (fun _ => none)) s.id = some s
  rw [hsplit, List.foldl_append, List.foldl_cons]
  rw [stepById_fold_notmem post _ s.id hpost]
  simp

theorem outgoing_fold :
    ∀ (edges : List EdgeSpec) (f0 : String → List EdgeSpec) (i : String),
      (edges.foldl (fun f e => fun x => if x = e.source then f x ++ [e] else f x) f0) i
        = f0 i ++ edges.filter (fun e => e.source = i) := by
  intro edges
  induction edges with
  | nil => intro f0 i; simp
  | cons e es ih =>
      intro f0 i
      simp only [List.foldl_cons, List.filter_cons]
      rw [ih]
      by_cases h : i = e.source
      · subst h
        simp
      · have h2 : ¬ (e.source = i) := fun hh => h hh.symm
        simp [h, h2]

theorem outgoing_init (spec : WorkflowSpec) (i : String) :
    (initMergeState spec).outgoing i = spec.edges.filter (fun e => e.source = i) := by
  show (spec.edges.foldl (fun f e => fun x => if x = e.source then f x ++ [e] else f x)
    (fun _ => [])) i = _
  rw [outgoing_fold]
  rfl

theorem incoming_fold :
    ∀ (edges : List EdgeSpec) (f0 : String → List EdgeSpec) (i : String),
      (edges.foldl (fun f e => fun x => if x = e.target then f x ++ [e] else f x) f0) i
        = f0 i ++ edges.filter (fun e => e.target = i) := by
  intro edges
  induction edges with
  | nil => intro f0 i; simp
  | cons e es ih =>
      intro f0 i
      simp only [List.foldl_cons, List.filter_cons]
      rw [ih]
      by_cases h : i = e.target
      · subst h
        simp
      · have h2 : ¬ (e.target = i) := fun hh => h hh.symm
        simp [h, h2]

theorem incoming_init (spec : WorkflowSpec) (i : String) :
    (initMergeState spec).incoming i = spec.edges.filter (fun e => e.target = i) := by
  show (spec.edges.foldl (fun f e => fun x => if x = e.target then f x ++ [e] else f x)
    (fun _ => [])) i = _
  rw [incoming_fold]
  rfl

theorem fuseFold_outgoing (source_id target_id : String) :
    ∀ (touts : List EdgeSpec) (acc : MergeState) (i : String),
      ((touts.foldl (fuseEdgeStep source_id target_id) acc).outgoing) i
        = if i = source_id then
            acc.outgoing i ++ touts.map
              (fun te => { source := source_id, target := te.target, condition := te.condition })
          else acc.outgoing i := by
  intro touts
  induction touts with
  | nil => intro acc i; simp
  | cons te ts ih =>
      intro acc i
      simp only [List.foldl_cons, List.map_cons]
      rw [ih]
      by_cases h : i = source_id
      · subst h
        simp [fuseEdgeStep]
      · simp [fuseEdgeStep, h]

theorem fuseFold_incoming_length (source_id target_id : String) :
    ∀ (touts : List EdgeSpec) (acc : MergeState) (i : String),
      ((touts.foldl (fuseEdgeStep source_id target_id) acc).incoming i).length
        = (acc.incoming i).length := by
  intro touts
  induction touts with
  | nil => intro acc i; rfl
  | cons te ts ih =>
      intro acc i
      simp only [List.foldl_cons]
      rw [ih]
      by_cases h : i = te.target
      · simp [fuseEdgeStep, h]
      · simp [fuseEdgeStep, h]

theorem fuseFold_rest (source_id target_id : String) :
    ∀ (touts : List EdgeSpec) (acc : MergeState),
      (touts.foldl (fuseEdgeStep source_id target_id) acc).stepById = acc.stepById
      ∧ (touts.foldl (fuseEdgeStep source_id target_id) acc).mergedInto = acc.mergedInto
      ∧ (touts.foldl (fuseEdgeStep source_id target_id) acc).removed = acc.removed := by
  intro touts
  induction touts with
  | nil => intro acc; exact ⟨rfl, rfl, rfl⟩
  | cons te ts ih =>
      intro acc
      simp only [List.foldl_cons]
      exact ih (fuseEdgeStep source_id target_id acc te)

theorem mergeInner_noop (st : MergeState) (sid : String) :
    ∀ es : List EdgeSpec,
      (∀ d ∈ es, d.target ∉ st.removed →
        ∃ s t, st.stepById sid = some s ∧ st.stepById d.target = some t ∧
          (strTruthy d.condition = true
           ∨ ¬(s.type = StepType.llm ∧ t.type = StepType.llm)
           ∨ (st.outgoing sid).length ≠ 1
           ∨ (st.incoming d.target).length ≠ 1
           ∨ ¬(s.config.model = t.config.model
               ∧ s.config.temperature.getD 0 = t.config.temperature.getD 0))) →
      mergeInner sid es st = some st := by
  intro es
  induction es with
  | nil => intro _; rfl
  | cons d ds ih =>
      intro hguards
      have hrest := fun d2 hd2 => hguards d2 (List.mem_cons_of_mem _ hd2)
      rw [mergeInner]
      by_cases hrem : d.target ∈ st.removed
      · rw [if_pos hrem]
        exact ih hrest
      · rw [if_neg hrem]
        obtain ⟨s, t, hs, ht, hfail⟩ := hguards d (List.mem_cons_self _ _) hrem
        rw [hs, ht]
        by_cases h1 : strTruthy d.condition = true
        · simp only [h1, if_true]
          exact ih hrest
        · simp only [h1, if_false]
          by_cases h2 : s.type = StepType.llm ∧ t.type = StepType.llm
          · rw [if_neg (not_not_intro h2)]
            by_cases h3 : (st.outgoing sid).length ≠ 1
            · rw [if_pos h3]
              exact ih hrest
            · rw [if_neg h3]
              by_cases h4 : (st.incoming d.target).length ≠ 1
              · rw [if_pos h4]
                exact ih hrest
              · rw [if_neg h4]
                by_cases h5 : s.config.model = t.config.model
                    ∧ s.config.temperature.getD 0 = t.config.temperature.getD 0
                · exfalso
                  rcases hfail with h | h | h | h | h
                  · exact h1 h
                  · exact h h2
                  · exact h3 h
                  · exact h4 h
                  · exact h h5
                · rw [if_pos h5]
                  exact ih hrest
          · rw [if_pos h2]
            exact ih hrest

theorem addEdgeFold_props (st : MergeState) :
    ∀ (ds : List EdgeSpec) (acc : List String × List EdgeSpec),
      (∀ k, k ∈ acc.1 ↔ ∃ e ∈ acc.2, edgeKeyOf e = k) →
      (∀ k, k ∈ (ds.foldl (addEdgeStep st) acc).1 ↔
          ∃ e ∈ (ds.foldl (addEdgeStep st) acc).2, edgeKeyOf e = k)
      ∧ (∀ e ∈ acc.2, e ∈ (ds.foldl (addEdgeStep st) acc).2)
      ∧ (∀ e ∈ (ds.foldl (addEdgeStep st) acc).2,
          e ∈ acc.2 ∨ ∃ d ∈ ds, remapEdge st d = e ∧ e.source ≠ e.target)
      ∧ (∀ d ∈ ds, (remapEdge st d).source ≠ (remapEdge st d).target →
          ∃ e ∈ (ds.foldl (addEdgeStep st) acc).2,
            edgeKeyOf e = edgeKeyOf (remapEdge st d)) := by
  intro ds
  induction ds with
  | nil =>
      intro acc hinv
      exact ⟨hinv, fun e he => he, fun e he => Or.inl he, fun d hd => absurd hd (List.not_mem_nil d)⟩
  | cons d ds ih =>
      intro acc hinv
      simp only [List.foldl_cons]
      by_cases hself : (remapEdge st d).source = (remapEdge st d).target
      · have hstep : addEdgeStep st acc d = acc := by
          rw [addEdgeStep, if_pos hself]
        rw [hstep]
        obtain ⟨p1, p2, p3, p4⟩ := ih acc hinv
        refine ⟨p1, p2, ?_, ?_⟩
        · intro e he
          rcases p3 e he with h | ⟨d2, hd2, hre⟩
          · exact Or.inl h
          · exact Or.inr ⟨d2, List.mem_cons_of_mem _ hd2, hre⟩
        · intro d2 hd2 hne
          rcases List.mem_cons.mp hd2 with rfl | hd2
          · exact absurd hself hne
          · exact p4 d2 hd2 hne
      · by_cases hseen : edgeKeyOf (remapEdge st d) ∈ acc.1
        · have hstep : addEdgeStep st acc d = acc := by
            rw [addEdgeStep, if_neg hself, if_pos hseen]
          rw [hstep]
          obtain ⟨p1, p2, p3, p4⟩ := ih acc hinv
          refine ⟨p1, p2, ?_, ?_⟩
          · intro e he
            rcases p3 e he with h | ⟨d2, hd2, hre⟩
            · exact Or.inl h
            · exact Or.inr ⟨d2, List.mem_cons_of_mem _ hd2, hre⟩
          · intro d2 hd2 hne
            rcases List.mem_cons.mp hd2 with rfl | hd2
            · obtain ⟨e, he, hke⟩ := (hinv _).mp hseen
              exact ⟨e, p2 e he, hke⟩
            · exact p4 d2 hd2 hne
        · have hstep : addEdgeStep st acc d
              = (acc.1 ++ [edgeKeyOf (remapEdge st d)], acc.2 ++ [remapEdge st d]) := by
            rw [addEdgeStep, if_neg hself, if_neg hseen]
          rw [hstep]
          have hinv2 : ∀ k, k ∈ (acc.1 ++ [edgeKeyOf (remapEdge st d)], acc.2 ++ [remapEdge st d]).1
              ↔ ∃ e ∈ (acc.1 ++ [edgeKeyOf (remapEdge st d)], acc.2 ++ [remapEdge st d]).2,
                edgeKeyOf e = k := by
            intro k
            simp only [List.mem_append, List.mem_singleton]
            constructor
            · rintro (hk | rfl)
              · obtain ⟨e, he, hke⟩ := (hinv k).mp hk
                exact ⟨e, Or.inl he, hke⟩
              · exact ⟨remapEdge st d, Or.inr rfl, rfl⟩
            · rintro ⟨e, he | rfl, hke⟩
              · exact Or.inl ((hinv k).mpr ⟨e, he, hke⟩)
              · exact Or.inr hke.symm
          obtain ⟨p1, p2, p3, p4⟩ := ih _ hinv2
          refine ⟨p1, ?_, ?_, ?_⟩
          · intro e he
            exact p2 e (List.mem_append.mpr (Or.inl he))
          · intro e he
            rcases p3 e he with h | ⟨d2, hd2, hre⟩
            · rcases List.mem_append.mp h with h2 | h2
              · exact Or.inl h2
              · rcases List.mem_singleton.mp h2 with rfl
                exact Or.inr ⟨d, List.mem_cons_self _ _, rfl, hself⟩
            · exact Or.inr ⟨d2, List.mem_cons_of_mem _ hd2, hre⟩
          · intro d2 hd2 hne
            rcases List.mem_cons.mp hd2 with rfl | hd2
            · exact ⟨remapEdge st d2, p2 _ (List.mem_append.mpr (Or.inr (List.mem_singleton.mpr rfl))), rfl⟩
            · exact p4 d2 hd2 hne

theorem addKeyFold_props (st : MergeState) :
    ∀ (keys : List String) (acc : List String × List EdgeSpec),
      (∀ k, k ∈ acc.1 ↔ ∃ e ∈ acc.2, edgeKeyOf e = k) →
      (∀ k, k ∈ (keys.foldl (addKeyStep st) acc).1 ↔
          ∃ e ∈ (keys.foldl (addKeyStep st) acc).2, edgeKeyOf e = k)
      ∧ (∀ e ∈ acc.2, e ∈ (keys.foldl (addKeyStep st) acc).2)
      ∧ (∀ e ∈ (keys.foldl (addKeyStep st) acc).2,
          e ∈ acc.2 ∨ ∃ k ∈ keys, k ∉ st.removed ∧ ∃ d ∈ st.outgoing k,
            remapEdge st d = e ∧ e.source ≠ e.target)
      ∧ (∀ k ∈ keys, k ∉ st.removed → ∀ d ∈ st.outgoing k,
          (remapEdge st d).source ≠ (remapEdge st d).target →
          ∃ e ∈ (keys.foldl (addKeyStep st) acc).2,
            edgeKeyOf e = edgeKeyOf (remapEdge st d)) := by
  intro keys
  induction keys with
  | nil =>
      intro acc hinv
      exact ⟨hinv, fun e he => he, fun e he => Or.inl he, fun k hk => absurd hk (List.not_mem_nil k)⟩
  | cons k ks ih =>
      intro acc hinv
      simp only [List.foldl_cons]
      by_cases hrem : k ∈ st.removed
      · have hstep : addKeyStep st acc k = acc := by
          rw [addKeyStep, if_pos hrem]
        rw [hstep]
        obtain ⟨p1, p2, p3, p4⟩ := ih acc hinv
        refine ⟨p1, p2, ?_, ?_⟩
        · intro e he
          rcases p3 e he with h | ⟨k2, hk2, hres⟩
          · exact Or.inl h
          · exact Or.inr ⟨k2, List.mem_cons_of_mem _ hk2, hres⟩
        · intro k2 hk2 hk2rem
          rcases List.mem_cons.mp hk2 with rfl | hk2
          · exact absurd hrem hk2rem
          · exact p4 k2 hk2 hk2rem
      · have hstep : addKeyStep st acc k = (st.outgoing k).foldl (addEdgeStep st) acc := by
          rw [addKeyStep, if_neg hrem]
        rw [hstep]
        obtain ⟨q1, q2, q3, q4⟩ := addEdgeFold_props st (st.outgoing k) acc hinv
        obtain ⟨p1, p2, p3, p4⟩ := ih _ q1
        refine ⟨p1, fun e he => p2 e (q2 e he), ?_, ?_⟩
        · intro e he
          rcases p3 e he with h | ⟨k2, hk2, hres⟩
          · rcases q3 e h with h2 | ⟨d, hd, hre⟩
            · exact Or.inl h2
            · exact Or.inr ⟨k, List.mem_cons_self _ _, hrem, d, hd, hre⟩
          · exact Or.inr ⟨k2, List.mem_cons_of_mem _ hk2, hres⟩
        · intro k2 hk2 hk2rem d hd hne
          rcases List.mem_cons.mp hk2 with rfl | hk2
          · obtain ⟨e, he, hke⟩ := q4 d hd hne
            exact ⟨e, p2 e he, hke⟩
          · exact p4 k2 hk2 hk2rem d hd hne

theorem compat_components {spec : WorkflowSpec} {d : EdgeSpec} {s t : StepSpec}
    (hs : (initMergeState spec).stepById d.source = some s)
    (ht : (initMergeState spec).stepById d.target = some t) :
    compatibleEdge spec d = true ↔
      (strTruthy d.condition = false
       ∧ (s.type = StepType.llm ∧ t.type = StepType.llm)
       ∧ s.config.model = t.config.model
       ∧ s.config.temperature.getD 0 = t.config.temperature.getD 0
       ∧ spec.edges.countP (fun e => e.source = d.source) = 1
       ∧ spec.edges.countP (fun e => e.target = d.target) = 1) := by
  rw [compatibleEdge, hs, ht]
  simp only [Bool.and_eq_true, Bool.not_eq_true', decide_eq_true_eq]
  tauto

theorem count_llm_filterMap (A B : String) (sA sB fA : StepSpec)
    (hAty : sA.type = StepType.llm) (hBty : sB.type = StepType.llm)
    (hfty : fA.type = StepType.llm) :
    ∀ l : List StepSpec,
      (∀ s ∈ l, (s.id = B → s = sB) ∧ (s.id = A → s = sA)) →
      (l.filterMap (fun s =>
          if s.id = B then none else if s.id = A then some fA else some s)).countP
            (fun s => s.type = StepType.llm)
        + l.countP (fun s => s.id = B)
        = l.countP (fun s => s.type = StepType.llm) := by
  intro l
  induction l with
  | nil => simp
  | cons s ss ih =>
      intro hmem
      have hs := hmem s (List.mem_cons_self _ _)
      have hrest := fun u hu => hmem u (List.mem_cons_of_mem _ hu)
      have ihr := ih hrest
      simp only [List.filterMap_cons]
      by_cases hB : s.id = B
      · have hty : s.type = StepType.llm := by
          rw [hs.1 hB]
          exact hBty
        rw [if_pos hB]
        simp [List.countP_cons, hB, hty]
        omega
      · rw [if_neg hB]
        by_cases hA : s.id = A
        · rw [if_pos hA]
          have hty : s.type = StepType.llm := by
            rw [hs.2 hA]
            exact hAty
          simp [List.countP_cons, hB, hty, hfty]
          omega
        · rw [if_neg hA]
          by_cases hty : s.type = StepType.llm
          · simp [List.countP_cons, hB, hty]
            omega
          · simp [List.countP_cons, hB, hty]
            omega

theorem fusedStep_fields (s t : StepSpec) (sid tid : String) :
    (fusedStep s t sid tid).type = s.type
    ∧ (fusedStep s t sid tid).config.model = s.config.model
    ∧ (fusedStep s t sid tid).config.temperature = s.config.temperature
    ∧ (fusedStep s t sid tid).id = s.id := ⟨rfl, rfl, rfl, rfl⟩

theorem fuseStep_removed (st : MergeState) (s t : StepSpec) (sid tid : String) :
    (fuseStep st s t sid tid).removed = st.removed ++ [tid] := rfl

theorem fuseStep_mergedInto (st : MergeState) (s t : StepSpec) (sid tid : String) :
    (fuseStep st s t sid tid).mergedInto
      = fun i => if i = tid then some sid else st.mergedInto i := rfl

theorem fuseStep_stepById (st : MergeState) (s t : StepSpec) (sid tid : String) :
    (fuseStep st s t sid tid).stepById
      = fun i => if i = sid then some (fusedStep s t sid tid) else st.stepById i :=
  (fuseFold_rest sid tid _ _).1

theorem fuseStep_outgoing (st : MergeState) (s t : StepSpec) (sid tid : String) :
    (fuseStep st s t sid tid).outgoing = fun i =>
      if i = tid then []
      else if i = sid then
        (st.outgoing sid ++ (st.outgoing tid).map
          (fun te => ({ source := sid, target := te.target, condition := te.condition } : EdgeSpec))).filter
            (fun e => e.target ≠ tid)
      else st.outgoing i := by
  funext i
  show (if i = tid then [] else if i = sid then
      (((st.outgoing tid).foldl (fuseEdgeStep sid tid)
        ({ st with stepById := fun i => if i = sid then some (fusedStep s t sid tid) else st.stepById i } : MergeState)).outgoing sid).filter
        (fun e => e.target ≠ tid)
    else ((st.outgoing tid).foldl (fuseEdgeStep sid tid)
        ({ st with stepById := fun i => if i = sid then some (fusedStep s t sid tid) else st.stepById i } : MergeState)).outgoing i) = _
  rw [fuseFold_outgoing, fuseFold_outgoing]
  by_cases h1 : i = tid
  · simp [h1]
  · by_cases h2 : i = sid
    · simp [h1, h2]
    · simp [h1, h2]

theorem fuseStep_incoming_length (st : MergeState) (s t : StepSpec) (sid tid : String)
    (i : String) (hi : i ≠ tid) :
    ((fuseStep st s t sid tid).incoming i).length = (st.incoming i).length := by
  show ((if i = tid then [] else
      ((st.outgoing tid).foldl (fuseEdgeStep sid tid)
        ({ st with stepById := fun i => if i = sid then some (fusedStep s t sid tid) else st.stepById i } : MergeState)).incoming i) : List EdgeSpec).length = _
  rw [if_neg hi, fuseFold_incoming_length]

theorem C3h_countP_id_one :
    ∀ (l : List StepSpec), (l.map (fun s => s.id)).Nodup →
      ∀ s ∈ l, l.countP (fun u => u.id = s.id) = 1 := by
  intro l
  induction l with
  | nil => intro _ s hs; exact absurd hs (List.not_mem_nil _)
  | cons a as ih =>
      intro hnd s hs
      simp only [List.map_cons, List.nodup_cons] at hnd
      rcases List.mem_cons.mp hs with rfl | hs'
      · rw [List.countP_cons, List.countP_eq_zero.mpr ?_]
        · simp
        · intro u hu
          simp only [decide_eq_true_eq]
          intro h
          exact hnd.1 (List.mem_map.mpr ⟨u, hu, h⟩)
      · rw [List.countP_cons]
        have hne : ¬(a.id = s.id) := by
          intro h
          apply hnd.1
          rw [h]
          exact List.mem_map.mpr ⟨s, hs', rfl⟩
        rw [ih hnd.2 s hs']
        simp [hne]

theorem C3h_inner_noop (spec : WorkflowSpec) (hnd : (step_ids spec).Nodup)
    (st : MergeState) (u : StepSpec) (hu : u ∈ spec.steps)
    (hstu : st.stepById u.id = some u)
    (hout : st.outgoing u.id = (initMergeState spec).outgoing u.id)
    (hlook : ∀ d ∈ (initMergeState spec).outgoing u.id, d.target ∉ st.removed →
        ∃ t0 t, (initMergeState spec).stepById d.target = some t0
          ∧ st.stepById d.target = some t
          ∧ t.type = t0.type ∧ t.config.model = t0.config.model
          ∧ t.config.temperature = t0.config.temperature
          ∧ (st.incoming d.target).length = ((initMergeState spec).incoming d.target).length)
    (hfalse : ∀ d ∈ (initMergeState spec).outgoing u.id, compatibleEdge spec d = false) :
    mergeInner u.id (st.outgoing u.id) st = some st := by
  rw [hout]
  apply mergeInner_noop
  intro d hd hdr
  obtain ⟨t0, t, ht0, ht, htty, htm, htt, hlen⟩ := hlook d hd hdr
  have hdmem : d ∈ spec.edges := by
    rw [outgoing_init] at hd
    exact (List.mem_filter.mp hd).1
  have hds : d.source = u.id := by
    rw [outgoing_init] at hd
    simpa using (List.mem_filter.mp hd).2
  refine ⟨u, t, hstu, ht, ?_⟩
  have hs0 : (initMergeState spec).stepById d.source = some u := by
    rw [hds]; exact stepById_init hnd hu
  have hnP : ¬ (strTruthy d.condition = false
      ∧ (u.type = StepType.llm ∧ t0.type = StepType.llm)
      ∧ u.config.model = t0.config.model
      ∧ u.config.temperature.getD 0 = t0.config.temperature.getD 0
      ∧ spec.edges.countP (fun e => e.source = d.source) = 1
      ∧ spec.edges.countP (fun e => e.target = d.target) = 1) := by
    intro hP
    have h := (compat_components hs0 ht0).mpr hP
    rw [hfalse d hd] at h
    exact Bool.noConfusion h
  have hlout : (st.outgoing u.id).length
      = spec.edges.countP (fun e => e.source = d.source) := by
    rw [hout, outgoing_init, List.countP_eq_length_filter, hds]
  have hlin : (st.incoming d.target).length
      = spec.edges.countP (fun e => e.target = d.target) := by
    rw [hlen, incoming_init, List.countP_eq_length_filter]
  by_cases h1 : strTruthy d.condition = true
  · exact Or.inl h1
  · have hc1 : strTruthy d.condition = false := by
      cases hb : strTruthy d.condition
      · rfl
      · exact absurd hb h1
    by_cases h2 : u.type = StepType.llm ∧ t.type = StepType.llm
    · by_cases h3 : (st.outgoing u.id).length = 1
      · by_cases h4 : (st.incoming d.target).length = 1
        · by_cases h5 : u.config.model = t.config.model
              ∧ u.config.temperature.getD 0 = t.config.temperature.getD 0
          · exfalso
            apply hnP
            refine ⟨hc1, ⟨h2.1, ?_⟩, ?_, ?_, ?_, ?_⟩
            · rw [← htty]; exact h2.2
            · rw [← htm]; exact h5.1
            · rw [← htt]; exact h5.2
            · rw [← hlout]; exact h3
            · rw [← hlin]; exact h4
          · exact Or.inr (Or.inr (Or.inr (Or.inr h5)))
        · exact Or.inr (Or.inr (Or.inr (Or.inl h4)))
      · exact Or.inr (Or.inr (Or.inl h3))
    · exact Or.inr (Or.inl h2)

theorem C3h_noop_init (spec : WorkflowSpec) (hnd : (step_ids spec).Nodup)
    (hwf : ∀ e ∈ spec.edges, e.source ∈ step_ids spec ∧ e.target ∈ step_ids spec)
    (u : StepSpec) (hu : u ∈ spec.steps)
    (hfalse : ∀ d ∈ (initMergeState spec).outgoing u.id, compatibleEdge spec d = false) :
    mergeInner u.id ((initMergeState spec).outgoing u.id) (initMergeState spec)
      = some (initMergeState spec) := by
  apply C3h_inner_noop spec hnd (initMergeState spec) u hu (stepById_init hnd hu) rfl ?_ hfalse
  intro d hd _
  have hdm : d ∈ spec.edges := by
    rw [outgoing_init] at hd
    exact (List.mem_filter.mp hd).1
  obtain ⟨t0, ht0mem, ht0id⟩ := List.mem_map.mp ((hwf d hdm).2)
  have ht00 : (initMergeState spec).stepById d.target = some t0 := by
    rw [← ht0id]; exact stepById_init hnd ht0mem
  exact ⟨t0, t0, ht00, ht00, rfl, rfl, rfl, rfl⟩

theorem C3h_noop_fused (spec : WorkflowSpec) (hnd : (step_ids spec).Nodup)
    (hwf : ∀ e ∈ spec.edges, e.source ∈ step_ids spec ∧ e.target ∈ step_ids spec)
    (sA sB : StepSpec) (hsA : sA ∈ spec.steps)
    (u : StepSpec) (hu : u ∈ spec.steps) (huA : u.id ≠ sA.id) (huB : u.id ≠ sB.id)
    (hfalse : ∀ d ∈ (initMergeState spec).outgoing u.id, compatibleEdge spec d = false) :
    mergeInner u.id ((fuseStep (initMergeState spec) sA sB sA.id sB.id).outgoing u.id)
        (fuseStep (initMergeState spec) sA sB sA.id sB.id)
      = some (fuseStep (initMergeState spec) sA sB sA.id sB.id) := by
  apply C3h_inner_noop spec hnd (fuseStep (initMergeState spec) sA sB sA.id sB.id) u hu
      ?_ ?_ ?_ hfalse
  · simp only [fuseStep_stepById]
    rw [if_neg huA]
    exact stepById_init hnd hu
  · simp only [fuseStep_outgoing]
    rw [if_neg huB, if_neg huA]
  · intro d hd hdrem
    have hdm : d ∈ spec.edges := by
      rw [outgoing_init] at hd
      exact (List.mem_filter.mp hd).1
    have htB : d.target ≠ sB.id := by
      intro h
      apply hdrem
      rw [fuseStep_removed]
      exact List.mem_append_right _ (by simp [h])
    obtain ⟨t0, ht0mem, ht0id⟩ := List.mem_map.mp ((hwf d hdm).2)
    have ht00 : (initMergeState spec).stepById d.target = some t0 := by
      rw [← ht0id]; exact stepById_init hnd ht0mem
    by_cases hdA : d.target = sA.id
    · have ht0A : t0 = sA :=
        List.inj_on_of_nodup_map hnd ht0mem hsA (by rw [ht0id, hdA])
      refine ⟨t0, fusedStep sA sB sA.id sB.id, ht00, ?_, ?_, ?_, ?_, ?_⟩
      · simp only [fuseStep_stepById]
        rw [if_pos hdA]
      · rw [ht0A]; rfl
      · rw [ht0A]; rfl
      · rw [ht0A]; rfl
      · exact fuseStep_incoming_length (initMergeState spec) sA sB sA.id sB.id d.target htB
    · refine ⟨t0, t0, ht00, ?_, rfl, rfl, rfl, ?_⟩
      · simp only [fuseStep_stepById]
        rw [if_neg hdA]
        exact ht00
      · exact fuseStep_incoming_length (initMergeState spec) sA sB sA.id sB.id d.target htB

theorem C3h_outer_prefix (spec : WorkflowSpec) (hnd : (step_ids spec).Nodup)
    (hwf : ∀ e ∈ spec.edges, e.source ∈ step_ids spec ∧ e.target ∈ step_ids spec) :
    ∀ (l1 rest : List StepSpec),
      (∀ u ∈ l1, u ∈ spec.steps) →
      (∀ u ∈ l1, ∀ d ∈ (initMergeState spec).outgoing u.id, compatibleEdge spec d = false) →
      mergeOuter (l1 ++ rest) (initMergeState spec) = mergeOuter rest (initMergeState spec) := by
  intro l1
  induction l1 with
  | nil => intro rest _ _; rfl
  | cons u us ih =>
      intro rest hmem hfalse
      rw [List.cons_append, mergeOuter]
      rw [if_neg (show u.id ∉ (initMergeState spec).removed from List.not_mem_nil _)]
      rw [C3h_noop_init spec hnd hwf u (hmem u (List.mem_cons_self _ _))
            (hfalse u (List.mem_cons_self _ _))]
      exact ih rest (fun v hv => hmem v (List.mem_cons_of_mem _ hv))
        (fun v hv => hfalse v (List.mem_cons_of_mem _ hv))

theorem C3h_outer_fused (spec : WorkflowSpec) (hnd : (step_ids spec).Nodup)
    (hwf : ∀ e ∈ spec.edges, e.source ∈ step_ids spec ∧ e.target ∈ step_ids spec)
    (sA sB : StepSpec) (hsA : sA ∈ spec.steps) :
    ∀ l2 : List StepSpec,
      (∀ u ∈ l2, u ∈ spec.steps) →
      (∀ u ∈ l2, u.id ≠ sA.id) →
      (∀ u ∈ l2, ∀ d ∈ (initMergeState spec).outgoing u.id, compatibleEdge spec d = false) →
      mergeOuter l2 (fuseStep (initMergeState spec) sA sB sA.id sB.id)
        = some (fuseStep (initMergeState spec) sA sB sA.id sB.id) := by
  have hrm : (fuseStep (initMergeState spec) sA sB sA.id sB.id).removed = [sB.id] := by
    rw [fuseStep_removed]
    rfl
  intro l2
  induction l2 with
  | nil => intro _ _ _; rfl
  | cons u us ih =>
      intro hmem hA hfalse
      rw [mergeOuter]
      by_cases hB : u.id = sB.id
      · rw [if_pos (by rw [hrm]; simp [hB])]
        exact ih (fun v hv => hmem v (List.mem_cons_of_mem _ hv))
          (fun v hv => hA v (List.mem_cons_of_mem _ hv))
          (fun v hv => hfalse v (List.mem_cons_of_mem _ hv))
      · rw [if_neg (by rw [hrm]; simp [hB])]
        rw [C3h_noop_fused spec hnd hwf sA sB hsA u (hmem u (List.mem_cons_self _ _))
              (hA u (List.mem_cons_self _ _)) hB
              (hfalse u (List.mem_cons_self _ _))]
        exact ih (fun v hv => hmem v (List.mem_cons_of_mem _ hv))
          (fun v hv => hA v (List.mem_cons_of_mem _ hv))
          (fun v hv => hfalse v (List.mem_cons_of_mem _ hv))

/-- C3: `MergeCompatibleStepsPass` on a well-formed spec (unique step ids, edge
endpoints that are step ids, no self-loop edges): when no edge passes the
fusion-eligibility test the pass returns the spec unchanged; and when exactly
one edge `A -> B` passes it (and the renamed edges have pairwise distinct
dedup keys), the pass fuses that single pair: one fewer Llm step, the fused
step keeps id `A` with prompt `A.prompt ++ "\n\n" ++ B.prompt`,
`fused_steps = [A, B]` and the max timeout, `B` disappears from the steps,
all other steps survive unchanged, `B`'s outgoing edges are re-sourced from
`A`, no remaining edge touches `B`, and outputs bound to `B` are rebound to
`A`.  (The original claim's "one fewer Llm step" fails when several disjoint
pairs are eligible: see the counterexample.) -/
theorem C3_merge_compatible_steps (spec : WorkflowSpec)
    (hnd : (step_ids spec).Nodup)
    (hwf : ∀ e ∈ spec.edges, e.source ∈ step_ids spec ∧ e.target ∈ step_ids spec)
    (hnoself : ∀ e ∈ spec.edges, e.source ≠ e.target) :
    ((∀ e ∈ spec.edges, compatibleEdge spec e = false) →
        mergeCompatibleSteps_apply spec = some spec)
    ∧ (∀ (sA sB : StepSpec) (estar : EdgeSpec) (pa pb : String),
        sA ∈ spec.steps → sB ∈ spec.steps →
        estar ∈ spec.edges → estar.source = sA.id → estar.target = sB.id →
        compatibleEdge spec estar = true →
        (∀ e ∈ spec.edges, compatibleEdge spec e = true → e = estar) →
        sA.config.prompt = some pa → sB.config.prompt = some pb →
        (∀ d1 ∈ spec.edges, ∀ d2 ∈ spec.edges,
            edgeKeyOf (fusedEdgeImage sA.id sB.id d1)
              = edgeKeyOf (fusedEdgeImage sA.id sB.id d2) → d1 = d2) →
        ∃ res, mergeCompatibleSteps_apply spec = some res
          ∧ res.steps.countP (fun s => s.type = StepType.llm) + 1
              = spec.steps.countP (fun s => s.type = StepType.llm)
          ∧ (∃ f ∈ res.steps, f.id = sA.id
              ∧ f.config.prompt = some (pa ++ "\n\n" ++ pb)
              ∧ f.config.fused_steps = some [sA.id, sB.id]
              ∧ f.timeout_seconds = max sA.timeout_seconds sB.timeout_seconds)
          ∧ (∀ s ∈ res.steps, s.id ≠ sB.id)
          ∧ (∀ s ∈ spec.steps, s.id ≠ sA.id → s.id ≠ sB.id → s ∈ res.steps)
          ∧ (∀ d ∈ spec.edges, d.source = sB.id → d.target ≠ sA.id →
              ({ source := sA.id, target := d.target, condition := d.condition } : EdgeSpec)
                ∈ res.edges)
          ∧ (∀ e ∈ res.edges, e.source ≠ sB.id ∧ e.target ≠ sB.id)
          ∧ res.outputs = spec.outputs.map (fun o =>
              match o.source_step with
              | some s => if s = sB.id then { o with source_step := some sA.id } else o
              | none => o)) := by
  constructor
  · intro hall
    have hfalse : ∀ u, u ∈ spec.steps →
        ∀ d ∈ (initMergeState spec).outgoing u.id, compatibleEdge spec d = false := by
      intro u _ d hd
      rw [outgoing_init] at hd
      exact hall d (List.mem_filter.mp hd).1
    have hmo : mergeOuter spec.steps (initMergeState spec) = some (initMergeState spec) := by
      have h := C3h_outer_prefix spec hnd hwf spec.steps [] (fun u hu => hu)
          (fun u hu => hfalse u hu)
      rw [List.append_nil] at h
      rw [h]
      rfl
    simp only [mergeCompatibleSteps_apply]
    rw [hmo]
    rfl
  · intro sA sB estar pa pb hsA hsB hstar hsrc htgt hcompat huniq hpa hpb hkeys
    have hAB : sA.id ≠ sB.id := by
      have h := hnoself estar hstar
      rw [hsrc, htgt] at h
      exact h
    have hsA0 : (initMergeState spec).stepById sA.id = some sA := stepById_init hnd hsA
    have hsB0 : (initMergeState spec).stepById sB.id = some sB := stepById_init hnd hsB
    have hsAsrc : (initMergeState spec).stepById estar.source = some sA := by
      rw [hsrc]; exact hsA0
    have hsBtgt : (initMergeState spec).stepById estar.target = some sB := by
      rw [htgt]; exact hsB0
    obtain ⟨hc1, ⟨hty1, hty2⟩, hmod, htemp, hcnt5, hcnt6⟩ :=
      (compat_components hsAsrc hsBtgt).mp hcompat
    rw [hsrc] at hcnt5
    rw [htgt] at hcnt6
    have houtA : (initMergeState spec).outgoing sA.id = [estar] := by
      rw [outgoing_init]
      apply list_eq_singleton
      · rw [← List.countP_eq_length_filter]
        exact hcnt5
      · exact List.mem_filter.mpr ⟨hstar, by simp [hsrc]⟩
    have hinB : (initMergeState spec).incoming sB.id = [estar] := by
      rw [incoming_init]
      apply list_eq_singleton
      · rw [← List.countP_eq_length_filter]
        exact hcnt6
      · exact List.mem_filter.mpr ⟨hstar, by simp [htgt]⟩
    have hfalse : ∀ u : StepSpec, u.id ≠ sA.id →
        ∀ d ∈ (initMergeState spec).outgoing u.id, compatibleEdge spec d = false := by
      intro u hne d hd
      rw [outgoing_init] at hd
      have hdm := List.mem_filter.mp hd
      have hds : d.source = u.id := by simpa using hdm.2
      cases hcd : compatibleEdge spec d
      · rfl
      · exfalso
        have hde := huniq d hdm.1 hcd
        rw [hde, hsrc] at hds
        exact hne hds.symm
    obtain ⟨l1, l2, hsplit⟩ := List.append_of_mem hsA
    have hnd2 : ((l1 ++ sA :: l2).map (fun s => s.id)).Nodup := by
      have h := hnd
      rw [step_ids, hsplit] at h
      exact h
    simp only [List.map_append, List.map_cons, List.nodup_append] at hnd2
    have hl1A : ∀ u ∈ l1, u.id ≠ sA.id := by
      intro u hu heq
      exact hnd2.2.2 (List.mem_map.mpr ⟨u, hu, rfl⟩)
        (by rw [heq]; exact List.mem_cons_self _ _)
    have hl2A : ∀ u ∈ l2, u.id ≠ sA.id := by
      intro u hu heq
      have h := hnd2.2.1
      rw [List.nodup_cons] at h
      apply h.1
      rw [← heq]
      exact List.mem_map.mpr ⟨u, hu, rfl⟩
    have hinj : ∀ u ∈ spec.steps, ∀ v ∈ spec.steps, u.id = v.id → u = v := by
      intro u hu v hv huv
      exact List.inj_on_of_nodup_map hnd hu hv huv
    have hpre := C3h_outer_prefix spec hnd hwf l1 (sA :: l2)
        (fun u hu => by rw [hsplit]; exact List.mem_append_left _ hu)
        (fun u hu => hfalse u (hl1A u hu))
    have hrem0 : estar.target ∉ (initMergeState spec).removed := List.not_mem_nil _
    have h1 : ¬ (strTruthy estar.condition = true) := by
      rw [hc1]
      exact Bool.false_ne_true
    have hlen1 : ¬ (((initMergeState spec).outgoing sA.id).length ≠ 1) := by
      rw [houtA]
      simp
    have hlen2 : ¬ (((initMergeState spec).incoming estar.target).length ≠ 1) := by
      rw [htgt, hinB]
      simp
    have hrun : mergeInner sA.id ((initMergeState spec).outgoing sA.id) (initMergeState spec)
        = some (fuseStep (initMergeState spec) sA sB sA.id sB.id) := by
      rw [houtA, mergeInner, if_neg hrem0, hsA0, hsBtgt]
      simp only [h1, if_false]
      rw [if_neg (not_not_intro ⟨hty1, hty2⟩)]
      rw [if_neg hlen1]
      rw [if_neg hlen2]
      rw [if_neg (not_not_intro ⟨hmod, htemp⟩)]
      rw [htgt]
      rfl
    have houterA : mergeOuter (sA :: l2) (initMergeState spec)
        = mergeOuter l2 (fuseStep (initMergeState spec) sA sB sA.id sB.id) := by
      rw [mergeOuter]
      rw [if_neg (show sA.id ∉ (initMergeState spec).removed from List.not_mem_nil _)]
      rw [hrun]
    have houterL2 : mergeOuter l2 (fuseStep (initMergeState spec) sA sB sA.id sB.id)
        = some (fuseStep (initMergeState spec) sA sB sA.id sB.id) :=
      C3h_outer_fused spec hnd hwf sA sB hsA l2
        (fun u hu => by
          rw [hsplit]
          exact List.mem_append_right _ (List.mem_cons_of_mem _ hu))
        (fun u hu => hl2A u hu)
        (fun u hu => hfalse u (hl2A u hu))
    have hmo : mergeOuter spec.steps (initMergeState spec)
        = some (fuseStep (initMergeState spec) sA sB sA.id sB.id) := by
      rw [hsplit, hpre, houterA, houterL2]
    have hremS : (fuseStep (initMergeState spec) sA sB sA.id sB.id).removed = [sB.id] := by
      rw [fuseStep_removed]
      rfl
    have hsteps : spec.steps.filterMap (fun s =>
          if s.id ∈ (fuseStep (initMergeState spec) sA sB sA.id sB.id).removed then none
          else (fuseStep (initMergeState spec) sA sB sA.id sB.id).stepById s.id)
        = spec.steps.filterMap (fun s =>
          if s.id = sB.id then none
          else if s.id = sA.id then some (fusedStep sA sB sA.id sB.id)
          else some s) := by
      apply List.filterMap_congr
      intro s hs
      rw [hremS]
      simp only [fuseStep_stepById, List.mem_singleton]
      by_cases hB : s.id = sB.id
      · simp [hB]
      · by_cases hA : s.id = sA.id
        · simp [hB, hA]
        · simp [hB, hA, stepById_init hnd hs]
    have hmI : ∀ i, (fuseStep (initMergeState spec) sA sB sA.id sB.id).mergedInto i
        = if i = sB.id then some sA.id else none := by
      intro i
      simp only [fuseStep_mergedInto]
      by_cases h : i = sB.id
      · simp [h]
      · simp only [h, if_false]
        rfl
    have houts : rebindOutput (fuseStep (initMergeState spec) sA sB sA.id sB.id)
        = fun o : OutputSpec =>
            match o.source_step with
            | some s => if s = sB.id then { o with source_step := some sA.id } else o
            | none => o := by
      funext o
      cases hso : o.source_step with
      | none => simp [rebindOutput, hso]
      | some s =>
          simp only [rebindOutput, hso]
          rw [hmI]
          by_cases h : s = sB.id
          · simp [h]
          · simp [h]
    have happ : mergeCompatibleSteps_apply spec = some
        { spec with
          steps := spec.steps.filterMap (fun s =>
            if s.id = sB.id then none
            else if s.id = sA.id then some (fusedStep sA sB sA.id sB.id)
            else some s)
          edges := buildNewEdges (fuseStep (initMergeState spec) sA sB sA.id sB.id)
            (outgoingKeys spec)
          outputs := spec.outputs.map (fun o =>
            match o.source_step with
            | some s => if s = sB.id then { o with source_step := some sA.id } else o
            | none => o) } := by
      simp only [mergeCompatibleSteps_apply]
      rw [hmo]
      show (if (fuseStep (initMergeState spec) sA sB sA.id sB.id).removed = [] then some spec
          else some { spec with
            steps := spec.steps.filterMap (fun s =>
              if s.id ∈ (fuseStep (initMergeState spec) sA sB sA.id sB.id).removed then none
              else (fuseStep (initMergeState spec) sA sB sA.id sB.id).stepById s.id)
            edges := buildNewEdges (fuseStep (initMergeState spec) sA sB sA.id sB.id)
              (outgoingKeys spec)
            outputs := spec.outputs.map
              (rebindOutput (fuseStep (initMergeState spec) sA sB sA.id sB.id)) }) = _
      rw [if_neg (by rw [hremS]; simp)]
      rw [hsteps, houts]
    refine ⟨_, happ, ?_, ?_, ?_, ?_, ?_, ?_, rfl⟩
    · -- llm count drops by exactly one
      have hfty : (fusedStep sA sB sA.id sB.id).type = StepType.llm := by
        rw [(fusedStep_fields sA sB sA.id sB.id).1]
        exact hty1
      have hmem : ∀ s ∈ spec.steps, (s.id = sB.id → s = sB) ∧ (s.id = sA.id → s = sA) := by
        intro s hs
        exact ⟨fun h => hinj s hs sB hsB h, fun h => hinj s hs sA hsA h⟩
      have hcount := count_llm_filterMap sA.id sB.id sA sB (fusedStep sA sB sA.id sB.id)
        hty1 hty2 hfty spec.steps hmem
      have hone : spec.steps.countP (fun s => s.id = sB.id) = 1 :=
        C3h_countP_id_one spec.steps hnd sB hsB
      rw [hone] at hcount
      exact hcount
    · -- the fused step and its fields
      refine ⟨fusedStep sA sB sA.id sB.id, ?_, rfl, ?_, rfl, rfl⟩
      · exact List.mem_filterMap.mpr ⟨sA, hsA, by simp [hAB]⟩
      · have hjoin : joinPrompts [pa, pb] = pa ++ "\n\n" ++ pb := rfl
        simp [fusedStep, hpa, hpb, hjoin]
    · -- no step with id B survives
      intro s hs
      obtain ⟨u, hu, hgu⟩ := List.mem_filterMap.mp hs
      by_cases huB : u.id = sB.id
      · rw [if_pos huB] at hgu
        exact absurd hgu (by simp)
      · rw [if_neg huB] at hgu
        by_cases huA : u.id = sA.id
        · rw [if_pos huA] at hgu
          have h := Option.some.inj hgu
          rw [← h]
          exact hAB
        · rw [if_neg huA] at hgu
          have h := Option.some.inj hgu
          rw [← h]
          exact huB
    · -- all other steps survive
      intro s hs hsa hsb
      exact List.mem_filterMap.mpr ⟨s, hs, by rw [if_neg hsb, if_neg hsa]⟩
    · -- B's outgoing edges are re-sourced from A
      have hremap : ∀ d : EdgeSpec,
          remapEdge (fuseStep (initMergeState spec) sA sB sA.id sB.id) d
            = fusedEdgeImage sA.id sB.id d := by
        intro d
        simp only [remapEdge, fusedEdgeImage, hmI]
        by_cases h1' : d.source = sB.id <;> by_cases h2' : d.target = sB.id <;>
          simp [h1', h2']
      have houtS : ∀ k, (fuseStep (initMergeState spec) sA sB sA.id sB.id).outgoing k
          = if k = sB.id then []
            else if k = sA.id then
              ((initMergeState spec).outgoing sA.id
                ++ ((initMergeState spec).outgoing sB.id).map
                  (fun te => ({ source := sA.id, target := te.target, condition := te.condition } : EdgeSpec))).filter
                (fun e => e.target ≠ sB.id)
            else (initMergeState spec).outgoing k :=
        fun k => congrFun (fuseStep_outgoing (initMergeState spec) sA sB sA.id sB.id) k
      have hinv0 : ∀ k, k ∈ (([], []) : List String × List EdgeSpec).1 ↔
          ∃ e ∈ (([], []) : List String × List EdgeSpec).2, edgeKeyOf e = k := by simp
      have hK := addKeyFold_props (fuseStep (initMergeState spec) sA sB sA.id sB.id)
        (outgoingKeys spec) ([], []) hinv0
      have hers : ∀ e ∈ buildNewEdges (fuseStep (initMergeState spec) sA sB sA.id sB.id)
          (outgoingKeys spec), ∃ d ∈ spec.edges, fusedEdgeImage sA.id sB.id d = e := by
        intro e he
        rcases hK.2.2.1 e he with h | ⟨k, hk, hknr, d0, hd0, hre, hne⟩
        · exact absurd h (List.not_mem_nil _)
        · have hkB : k ≠ sB.id := by
            intro h
            apply hknr
            rw [hremS]
            simp [h]
          rw [houtS k, if_neg hkB] at hd0
          by_cases hkA : k = sA.id
          · rw [if_pos hkA] at hd0
            have hd0' := List.mem_filter.mp hd0
            have hd0t : d0.target ≠ sB.id := by simpa using hd0'.2
            rcases List.mem_append.mp hd0'.1 with hL | hR
            · rw [houtA] at hL
              have hde : d0 = estar := by simpa using hL
              rw [hde] at hd0t
              exact absurd htgt hd0t
            · obtain ⟨te, hte, hted⟩ := List.mem_map.mp hR
              rw [outgoing_init] at hte
              have htem := List.mem_filter.mp hte
              have htes : te.source = sB.id := by simpa using htem.2
              have hd0eq : d0 = ({ source := sA.id, target := te.target, condition := te.condition } : EdgeSpec) := hted.symm
              have htet : te.target ≠ sB.id := by
                intro h
                apply hd0t
                rw [hd0eq, h]
              refine ⟨te, htem.1, ?_⟩
              rw [← hre, hremap d0, hd0eq]
              simp [fusedEdgeImage, htes, htet, hAB]
          · rw [if_neg hkA, outgoing_init] at hd0
            have hd0m := List.mem_filter.mp hd0
            refine ⟨d0, hd0m.1, ?_⟩
            rw [← hre, hremap d0]
      intro d hd hdB hdtA
      have hdt : d.target ≠ sB.id := by
        have h := hnoself d hd
        rw [hdB] at h
        exact h.symm
      have hd' : ({ source := sA.id, target := d.target, condition := d.condition } : EdgeSpec)
          ∈ (fuseStep (initMergeState spec) sA sB sA.id sB.id).outgoing sA.id := by
        rw [houtS sA.id, if_neg hAB, if_pos rfl]
        apply List.mem_filter.mpr
        refine ⟨?_, by simp [hdt]⟩
        apply List.mem_append_right
        apply List.mem_map.mpr
        refine ⟨d, ?_, rfl⟩
        rw [outgoing_init]
        exact List.mem_filter.mpr ⟨hd, by simp [hdB]⟩
      have hAkeys : sA.id ∈ outgoingKeys spec :=
        mem_dictKeys.mpr (List.mem_append_left _ (List.mem_map.mpr ⟨sA, hsA, rfl⟩))
      have hAnr : sA.id ∉ (fuseStep (initMergeState spec) sA sB sA.id sB.id).removed := by
        rw [hremS]
        simp [hAB]
      have hrel : remapEdge (fuseStep (initMergeState spec) sA sB sA.id sB.id)
          ({ source := sA.id, target := d.target, condition := d.condition } : EdgeSpec)
          = ({ source := sA.id, target := d.target, condition := d.condition } : EdgeSpec) := by
        rw [hremap]
        simp [fusedEdgeImage, hAB, hdt]
      have hne' : (remapEdge (fuseStep (initMergeState spec) sA sB sA.id sB.id)
            ({ source := sA.id, target := d.target, condition := d.condition } : EdgeSpec)).source
          ≠ (remapEdge (fuseStep (initMergeState spec) sA sB sA.id sB.id)
            ({ source := sA.id, target := d.target, condition := d.condition } : EdgeSpec)).target := by
        rw [hrel]
        exact Ne.symm hdtA
      obtain ⟨e, he, hke⟩ := hK.2.2.2 sA.id hAkeys hAnr
        ({ source := sA.id, target := d.target, condition := d.condition } : EdgeSpec) hd' hne'
      obtain ⟨d2, hd2, hd2e⟩ := hers e he
      have hd'img : ({ source := sA.id, target := d.target, condition := d.condition } : EdgeSpec)
          = fusedEdgeImage sA.id sB.id d := by
        simp [fusedEdgeImage, hdB, hdt]
      have hkeq : edgeKeyOf (fusedEdgeImage sA.id sB.id d2)
          = edgeKeyOf (fusedEdgeImage sA.id sB.id d) := by
        rw [hd2e, hke, hrel, hd'img]
      have hd2d := hkeys d2 hd2 d hd hkeq
      have hee : e = ({ source := sA.id, target := d.target, condition := d.condition } : EdgeSpec) := by
        rw [← hd2e, hd2d, ← hd'img]
      rw [← hee]
      exact he
    · -- no remaining edge touches B
      have hremap : ∀ d : EdgeSpec,
          remapEdge (fuseStep (initMergeState spec) sA sB sA.id sB.id) d
            = fusedEdgeImage sA.id sB.id d := by
        intro d
        simp only [remapEdge, fusedEdgeImage, hmI]
        by_cases h1' : d.source = sB.id <;> by_cases h2' : d.target = sB.id <;>
          simp [h1', h2']
      have houtS : ∀ k, (fuseStep (initMergeState spec) sA sB sA.id sB.id).outgoing k
          = if k = sB.id then []
            else if k = sA.id then
              ((initMergeState spec).outgoing sA.id
                ++ ((initMergeState spec).outgoing sB.id).map
                  (fun te => ({ source := sA.id, target := te.target, condition := te.condition } : EdgeSpec))).filter
                (fun e => e.target ≠ sB.id)
            else (initMergeState spec).outgoing k :=
        fun k => congrFun (fuseStep_outgoing (initMergeState spec) sA sB sA.id sB.id) k
      have hinv0 : ∀ k, k ∈ (([], []) : List String × List EdgeSpec).1 ↔
          ∃ e ∈ (([], []) : List String × List EdgeSpec).2, edgeKeyOf e = k := by simp
      have hK := addKeyFold_props (fuseStep (initMergeState spec) sA sB sA.id sB.id)
        (outgoingKeys spec) ([], []) hinv0
      have hers : ∀ e ∈ buildNewEdges (fuseStep (initMergeState spec) sA sB sA.id sB.id)
          (outgoingKeys spec), ∃ d ∈ spec.edges, fusedEdgeImage sA.id sB.id d = e := by
        intro e he
        rcases hK.2.2.1 e he with h | ⟨k, hk, hknr, d0, hd0, hre, hne⟩
        · exact absurd h (List.not_mem_nil _)
        · have hkB : k ≠ sB.id := by
            intro h
            apply hknr
            rw [hremS]
            simp [h]
          rw [houtS k, if_neg hkB] at hd0
          by_cases hkA : k = sA.id
          · rw [if_pos hkA] at hd0
            have hd0' := List.mem_filter.mp hd0
            have hd0t : d0.target ≠ sB.id := by simpa using hd0'.2
            rcases List.mem_append.mp hd0'.1 with hL | hR
            · rw [houtA] at hL
              have hde : d0 = estar := by simpa using hL
              rw [hde] at hd0t
              exact absurd htgt hd0t
            · obtain ⟨te, hte, hted⟩ := List.mem_map.mp hR
              rw [outgoing_init] at hte
              have htem := List.mem_filter.mp hte
              have htes : te.source = sB.id := by simpa using htem.2
              have hd0eq : d0 = ({ source := sA.id, target := te.target, condition := te.condition } : EdgeSpec) := hted.symm
              have htet : te.target ≠ sB.id := by
                intro h
                apply hd0t
                rw [hd0eq, h]
              refine ⟨te, htem.1, ?_⟩
              rw [← hre, hremap d0, hd0eq]
              simp [fusedEdgeImage, htes, htet, hAB]
          · rw [if_neg hkA, outgoing_init] at hd0
            have hd0m := List.mem_filter.mp hd0
            refine ⟨d0, hd0m.1, ?_⟩
            rw [← hre, hremap d0]
      intro e he
      obtain ⟨d, hd, hde⟩ := hers e he
      rw [← hde]
      constructor
      · by_cases h : d.source = sB.id
        · simp [fusedEdgeImage, h, hAB]
        · simp [fusedEdgeImage, h]
      · by_cases h : d.target = sB.id
        · simp [fusedEdgeImage, h, hAB]
        · simp [fusedEdgeImage, h]

/-- C3 counterexample: `sampleSpec4` satisfies the claim's premise (it contains
an unconditional edge between two Llm steps with equal model and temperature
and 1:1 edge cardinalities — in fact two such disjoint pairs, `a -> b` and
`c -> d`), it has 4 Llm steps, but `MergeCompatibleStepsPass` returns a spec
with 2 Llm steps, not the claimed "one fewer" (3): the pass fuses every
eligible pair in a single invocation, not just one. -/
theorem C3_counterexample :
    (∃ e ∈ sampleSpec4.edges, compatibleEdge sampleSpec4 e = true)
    ∧ sampleSpec4.steps.countP (fun s => s.type = StepType.llm) = 4
    ∧ (mergeCompatibleSteps_apply sampleSpec4).map
        (fun w => w.steps.countP (fun s => s.type = StepType.llm)) = some 2 :=
  ⟨by decide, by decide, by decide⟩

/-- Witness for C3: the single fusable pair `X -> Y` of `sampleSpecFuse` is
merged exactly as the amended claim states. -/
theorem C3_merge_compatible_steps_witness :
    ∃ res, mergeCompatibleSteps_apply sampleSpecFuse = some res
      ∧ res.steps.countP (fun s => s.type = StepType.llm) + 1
          = sampleSpecFuse.steps.countP (fun s => s.type = StepType.llm)
      ∧ (∃ f ∈ res.steps, f.id = "X"
          ∧ f.config.prompt = some ("a" ++ "\n\n" ++ "b")
          ∧ f.config.fused_steps = some ["X", "Y"]
          ∧ f.timeout_seconds = max 120 120)
      ∧ (∀ s ∈ res.steps, s.id ≠ "Y")
      ∧ (∀ s ∈ sampleSpecFuse.steps, s.id ≠ "X" → s.id ≠ "Y" → s ∈ res.steps)
      ∧ (∀ d ∈ sampleSpecFuse.edges, d.source = "Y" → d.target ≠ "X" →
          ({ source := "X", target := d.target, condition := d.condition } : EdgeSpec)
            ∈ res.edges)
      ∧ (∀ e ∈ res.edges, e.source ≠ "Y" ∧ e.target ≠ "Y")
      ∧ res.outputs = sampleSpecFuse.outputs.map (fun o =>
          match o.source_step with
          | some s => if s = "Y" then { o with source_step := some "X" } else o
          | none => o) :=
  (C3_merge_compatible_steps sampleSpecFuse (by decide) (by decide) (by decide)).2
    { id := "X", type := .llm, config := { model := some "m", prompt := some "a" } }
    { id := "Y", type := .llm, config := { model := some "m", prompt := some "b" } }
    { source := "X", target := "Y" } "a" "b"
    (by decide) (by decide) (by decide) rfl rfl (by decide) (by decide) rfl rfl (by decide)
